import Mathlib

/-!
Verification of the Dependency Graph Engine of InsightBoard-AI.

This file gives a shallow embedding of the graph algorithms of
`backend/app/services/dependency_service.py` and
`backend/app/services/graph_service.py`, of the dependency-creation
service path, and of the graph-cache wiring of the API layer
(`backend/app/api/v1/tasks.py`, `backend/app/api/v1/dependencies.py`,
`backend/app/services/cache_service.py`), and proves or refutes the
frozen specification claims about them.

Modelling conventions:
* Python floats are modelled as exact rationals (`ℚ`).
* `networkx.DiGraph` is modelled as insertion-ordered node and edge
  lists; node/edge attribute dictionaries are narrowed to the
  attributes the verified claims consume (`title`, `duration`); the
  remaining attributes (priority, status, assignee, deadline, edge
  type, lag) are carried through the source unchanged and play no role
  in any claim.
* The library calls `nx.topological_sort` / `nx.is_directed_acyclic_graph`
  are modelled by Kahn's algorithm (repeatedly removing the nodes with
  no remaining predecessor, insertion-order tie-break), which is
  exactly the algorithm the specification prescribes for them
  (spec §4.3 step 1).
* `nx.simple_cycles(...)[0]` (used only to report one offending cycle)
  is modelled by a predecessor walk inside the non-peelable core of the
  graph, following the specification's cycle-reconstruction description
  (spec §4.2); the property proved about it is only that the reported
  path is a closed walk of the graph, which is all that is asserted of
  the reported cycle.
* Python dicts keyed by node id (slack, levels, positions) are modelled
  as association lists in insertion order.
-/

namespace InsightBoard

/-- A graph node: task id plus the node attributes consumed by the
verified claims (`title` and `duration`, both optional because
`nx.add_edge` can create attribute-less nodes). -/
structure Node where
  id : String
  title : Option String
  duration : Option ℚ
deriving Repr, DecidableEq

/-- `nx.DiGraph`: insertion-ordered nodes and directed edges
(prerequisite → dependent). -/
structure DiGraph where
  nodes : List Node
  edges : List (String × String)
deriving Repr, DecidableEq

/-- The node ids of a graph, in insertion order. -/
def DiGraph.nodeIds (g : DiGraph) : List String :=
  g.nodes.map (·.id)

/-- Edge test, `graph.has_edge(u, v)`. -/
def DiGraph.edgeB (g : DiGraph) (u v : String) : Bool :=
  g.edges.any (fun e => e.1 == u && e.2 == v)

/-- `graph.add_node(id)` with no attributes: a no-op when the node
exists (networkx semantics), otherwise appends an attribute-less node. -/
def DiGraph.addNode (g : DiGraph) (v : String) : DiGraph :=
  if g.nodeIds.any (fun w => w == v) then g
  else { g with nodes := g.nodes ++ [⟨v, none, none⟩] }

/-- `graph.add_edge(u, v)`: auto-adds missing endpoints, and a
duplicate edge pair collapses (networkx adjacency-dict semantics). -/
def DiGraph.addEdge (g : DiGraph) (u v : String) : DiGraph :=
  let g' := (g.addNode u).addNode v
  if g'.edgeB u v then g'
  else { g' with edges := g'.edges ++ [(u, v)] }

/-- `graph.successors(n)`, in edge insertion order. -/
def DiGraph.successors (g : DiGraph) (n : String) : List String :=
  (g.edges.filter (fun e => e.1 == n)).map (·.2)

/-- `graph.predecessors(n)`, in edge insertion order. -/
def DiGraph.predecessors (g : DiGraph) (n : String) : List String :=
  (g.edges.filter (fun e => e.2 == n)).map (·.1)

/-- `graph.in_degree(n)`. -/
def DiGraph.inDegree (g : DiGraph) (n : String) : Nat :=
  (g.predecessors n).length

/-- `graph.out_degree(n)`. -/
def DiGraph.outDegree (g : DiGraph) (n : String) : Nat :=
  (g.successors n).length

/-- Well-formedness invariants that `nx.DiGraph` maintains by
construction: edge endpoints are nodes, and node ids are unique. -/
def WF (g : DiGraph) : Prop :=
  (∀ e ∈ g.edges, e.1 ∈ g.nodeIds ∧ e.2 ∈ g.nodeIds) ∧ g.nodeIds.Nodup

/-- One round of Kahn's algorithm: the nodes of `rem` with no
predecessor inside `rem`. -/
def zeroIndeg (g : DiGraph) (rem : List String) : List String :=
  rem.filter (fun v => !(rem.any (fun u => g.edgeB u v)))

/-- Kahn's algorithm (models `nx.topological_sort` /
`nx.is_directed_acyclic_graph`, as prescribed in spec §4.3 step 1):
returns the generations of removed nodes together with the
non-peelable remainder; the remainder is empty iff the graph restricted
to `rem` is acyclic. `fuel` bounds the number of rounds. -/
def kahnAux (g : DiGraph) : Nat → List String → List (List String) × List String
  | 0, rem => ([], rem)
  | fuel + 1, rem =>
    let zero := zeroIndeg g rem
    if zero.isEmpty then ([], rem)
    else
      let r := kahnAux g fuel (rem.filter (fun v => !(zero.any (fun z => z == v))))
      (zero :: r.1, r.2)

/-- The non-peelable core of the graph (empty iff the graph is a DAG). -/
def core (g : DiGraph) : List String :=
  (kahnAux g g.nodeIds.length g.nodeIds).2

/-- `nx.is_directed_acyclic_graph(graph)`. -/
def isDAGb (g : DiGraph) : Bool :=
  (core g).isEmpty

/-- `list(nx.topological_sort(graph))`: concatenation of the Kahn
generations. -/
def topoSort (g : DiGraph) : List String :=
  (kahnAux g g.nodeIds.length g.nodeIds).1.flatten

/-- Mathematical acyclicity violation: some node reaches itself through
at least one edge. -/
def Cyclic (g : DiGraph) : Prop :=
  ∃ v, Relation.TransGen (fun a b => g.edgeB a b = true) v v

/-- A closed directed walk of `g`: nonempty, consecutive elements are
edges, and there is an edge from the last element back to the first. -/
def IsClosedWalk (g : DiGraph) : List String → Prop
  | [] => False
  | v :: rest =>
      List.Chain (fun a b => g.edgeB a b = true) v rest ∧
      g.edgeB (rest.getLastD v) v = true

/-- Association-list lookup with `==` keys (Python dict access). -/
def alookup {α : Type} : List (String × α) → String → Option α
  | [], _ => none
  | (k, v) :: rest, key => if k == key then some v else alookup rest key

/-- `dict.get(key, default)` for rational-valued dicts. -/
def lookupQ (m : List (String × ℚ)) (k : String) (d : ℚ) : ℚ :=
  (alookup m k).getD d

/-- Python `round(x, 2)` on exact values: round half to even at the
second decimal. -/
def pyRound2 (q : ℚ) : ℚ :=
  let x := q * 100
  let f := ⌊x⌋
  let n : ℤ :=
    if x - f < 1/2 then f
    else if x - f > 1/2 then f + 1
    else if Even f then f else f + 1
  (n : ℚ) / 100

/-- `graph.nodes[node].get("duration", 4)`. -/
def durOf (g : DiGraph) (n : String) : ℚ :=
  match (g.nodes.find? (fun nd => nd.id == n)).bind (·.duration) with
  | some d => d
  | none => 4

/-- Python `max` over a nonempty list (0 for the empty list, which the
source never evaluates). -/
def maxQ (l : List ℚ) : ℚ :=
  match l with
  | [] => 0
  | x :: xs => xs.foldl max x

/-- Python `min` over a nonempty list (0 for the empty list, which the
source never evaluates). -/
def minQ (l : List ℚ) : ℚ :=
  match l with
  | [] => 0
  | x :: xs => xs.foldl min x

/-- CPM forward pass (`compute_critical_path` lines 332–348): earliest
start / earliest finish per node, accumulated in topological order. -/
def forwardPass (g : DiGraph) (order : List String) :
    List (String × ℚ) × List (String × ℚ) :=
  order.foldl
    (fun (acc : List (String × ℚ) × List (String × ℚ)) n =>
      let d := durOf g n
      let ps := g.predecessors n
      let s := if ps.isEmpty then 0 else maxQ (ps.map (fun p => lookupQ acc.2 p 0))
      (acc.1 ++ [(n, s)], acc.2 ++ [(n, s + d)]))
    ([], [])

/-- `total_duration = max(earliest_finish.values())`, 0 when empty
(`compute_critical_path` lines 350–354). -/
def totalDur (g : DiGraph) (order : List String) : ℚ :=
  maxQ (order.map (fun n => lookupQ (forwardPass g order).2 n 0))

/-- CPM backward pass (`compute_critical_path` lines 356–372): latest
finish / latest start per node, accumulated in reverse topological
order. -/
def backwardPass (g : DiGraph) (order : List String) (total : ℚ) :
    List (String × ℚ) × List (String × ℚ) :=
  order.reverse.foldl
    (fun (acc : List (String × ℚ) × List (String × ℚ)) n =>
      let d := durOf g n
      let ss := g.successors n
      let f := if ss.isEmpty then total else minQ (ss.map (fun s => lookupQ acc.2 s total))
      (acc.1 ++ [(n, f)], acc.2 ++ [(n, f - d)]))
    ([], [])

/-- `earliest_start[n]` of the analysis run on `g` itself. -/
def earliestStartOf (g : DiGraph) (n : String) : ℚ :=
  lookupQ (forwardPass g (topoSort g)).1 n 0

/-- `latest_start[n]` of the analysis run on `g` itself. -/
def latestStartOf (g : DiGraph) (n : String) : ℚ :=
  lookupQ (backwardPass g (topoSort g) (totalDur g (topoSort g))).2 n 0

/-- The raw (pre-rounding, pre-clamping) slack
`latest_start[node] - earliest_start[node]` that the source names
`node_slack` (`compute_critical_path` line 379). -/
def rawSlack (g : DiGraph) (n : String) : ℚ :=
  latestStartOf g n - earliestStartOf g n

/-- `DependencyService.compute_critical_path` (lines 306–390).
`.error cycle` models `raise CyclicDependencyError([])`;
`.ok (critical nodes, total duration, slack map)` otherwise, the slack
dict being an association list in topological (insertion) order. -/
def computeCriticalPath (g : DiGraph) :
    Except (List String) (List String × ℚ × List (String × ℚ)) :=
  if g.nodes.isEmpty then .ok ([], 0, [])
  else if ¬ isDAGb g then .error []
  else
    let order := topoSort g
    let es := (forwardPass g order).1
    let ls := (backwardPass g order (totalDur g order)).2
    let slack := order.map (fun n => (n, max 0 (pyRound2 (lookupQ ls n 0 - lookupQ es n 0))))
    let critical := order.filter (fun n => decide (lookupQ ls n 0 - lookupQ es n 0 ≤ 1/1000))
    .ok (critical, totalDur g order, slack)

/-- A bottleneck entry (`detect_bottlenecks` result dict). -/
structure Bottleneck where
  task_id : String
  task_title : String
  score : Nat
  in_degree : Nat
  out_degree : Nat
deriving Repr, DecidableEq

/-- `graph.nodes[node].get("title", "Unknown")`. -/
def titleOf (g : DiGraph) (n : String) : String :=
  match (g.nodes.find? (fun nd => nd.id == n)).bind (·.title) with
  | some t => t
  | none => "Unknown"

/-- The candidate list of `detect_bottlenecks` (lines 410–426): one
entry per node with `score = 2*out_degree + in_degree > 0`, in node
insertion order. -/
def bottleneckCandidates (g : DiGraph) : List Bottleneck :=
  g.nodeIds.filterMap (fun n =>
    let i := g.inDegree n
    let o := g.outDegree n
    let score := o * 2 + i
    if 0 < score then
      some ⟨n, titleOf g n, score, i, o⟩
    else none)

/-- Stable insertion of an entry into a score-descending list: placed
after every entry of strictly greater score and before entries of
equal or smaller score (which come later in the original input),
matching Python's stable `sort(key=..., reverse=True)`. -/
def insertDesc (x : Bottleneck) : List Bottleneck → List Bottleneck
  | [] => [x]
  | y :: ys => if y.score ≤ x.score then x :: y :: ys else y :: insertDesc x ys

/-- Stable sort by score descending (models
`bottlenecks.sort(key=lambda x: x["score"], reverse=True)`). -/
def sortDesc : List Bottleneck → List Bottleneck
  | [] => []
  | x :: xs => insertDesc x (sortDesc xs)

/-- `DependencyService.detect_bottlenecks` (lines 392–431). -/
def detectBottlenecks (g : DiGraph) (topN : Nat := 5) : List Bottleneck :=
  if g.nodes.isEmpty then []
  else (sortDesc (bottleneckCandidates g)).take topN

end InsightBoard

namespace InsightBoard

/-! ### Hierarchical layout (`GraphService._hierarchical_layout`, lines 170–223) -/

/-- `dict.get` for level dicts. -/
def lookupN (m : List (String × Nat)) (k : String) (d : Nat) : Nat :=
  (alookup m k).getD d

/-- Python `max` over a nonempty list of naturals (0 when empty, which
the source never evaluates on). -/
def maxN (l : List Nat) : Nat :=
  l.foldl max 0

/-- One step of the level computation of `_hierarchical_layout`
(lines 190–195): append the node's level to the level dict. -/
def levelStep (g : DiGraph) (m : List (String × Nat)) (n : String) : List (String × Nat) :=
  let ps := g.predecessors n
  let v := if ps.isEmpty then 0 else maxN (ps.map (fun p => lookupN m p 0)) + 1
  m ++ [(n, v)]

/-- The level dict of `_hierarchical_layout` (lines 188–195): built in
topological order, `level[n] = 0` for a node without predecessors and
`max(level[p] for p in predecessors) + 1` otherwise. -/
def levelsFold (g : DiGraph) (order : List String) : List (String × Nat) :=
  order.foldl (levelStep g) []

/-- First-occurrence deduplication with an accumulator of seen values
(models Python dict key iteration order for `nodes_by_level`). -/
def dedupAux (seen : List Nat) : List Nat → List Nat
  | [] => []
  | x :: xs =>
    if seen.any (fun y => y == x) then dedupAux seen xs
    else x :: dedupAux (x :: seen) xs

/-- The distinct values of a list in first-occurrence order. -/
def dedupFirst (l : List Nat) : List Nat :=
  dedupAux [] l

/-- The computed node levels of `g`. -/
def hierarchicalLevels (g : DiGraph) : List (String × Nat) :=
  levelsFold g (topoSort g)

/-- The layout constants of `_hierarchical_layout` (lines 208–211). -/
def verticalSpacing : ℚ := 200

/-- Horizontal pixel distance between nodes of one level. -/
def horizontalSpacing : ℚ := 350

/-- The fixed left start offset. -/
def startX : ℚ := 150

/-- The fixed top start offset (`start_y`). -/
def startY : ℚ := 100

/-- The canvas width default of `_compute_layout` (line 136). -/
def canvasWidth : ℚ := 2000

/-- The nodes of one level, in level-dict insertion (= topological)
order, as grouped by `nodes_by_level`. -/
def rowNodes (g : DiGraph) (lvl : Nat) : List String :=
  ((hierarchicalLevels g).filter (fun p => p.2 == lvl)).map (·.1)

/-- The x coordinate of the `i`-th node of a row of `k` nodes
(line 217–220): nodes are spaced `horizontal_spacing` apart and the row
is centred via `start_x + (width - total_width) / 2`. -/
def rowX (k : Nat) (i : Nat) : ℚ :=
  startX + (canvasWidth - ((k : ℚ) - 1) * horizontalSpacing) / 2 + (i : ℚ) * horizontalSpacing

/-- `GraphService._hierarchical_layout` (lines 170–223): positions per
node id, produced level by level in first-occurrence order of levels. -/
def hierarchicalLayout (g : DiGraph) : List (String × (ℚ × ℚ)) :=
  let levels := hierarchicalLevels g
  let levelVals := dedupFirst (levels.map (·.2))
  levelVals.flatMap (fun lvl =>
    let row := rowNodes g lvl
    let y := startY + (lvl : ℚ) * verticalSpacing
    row.enum.map (fun p => (p.2, (rowX row.length p.1, y))))

/-! ### React Flow edge conversion (`GraphService.generate_react_flow_data`,
lines 99–118) -/

/-- A React Flow edge record (the fields the verified claim consumes:
id, endpoints, and the critical-highlighting outputs `animated`,
`stroke`, `strokeWidth`). -/
structure RFEdge where
  id : String
  source : String
  target : String
  animated : Bool
  stroke : String
  strokeWidth : Nat
deriving Repr, DecidableEq

/-- The edge list of `generate_react_flow_data` (lines 100–118): an
edge is highlighted (`animated`, red stroke, width 2) exactly when both
endpoints are in the critical set. -/
def reactFlowEdges (g : DiGraph) (criticalSet : List String) : List RFEdge :=
  g.edges.map (fun e =>
    let isCrit := criticalSet.any (fun c => c == e.1) && criticalSet.any (fun c => c == e.2)
    { id := e.1 ++ "-" ++ e.2
      source := e.1
      target := e.2
      animated := isCrit
      stroke := if isCrit then "#ef4444" else "#6b7280"
      strokeWidth := if isCrit then 2 else 1 })

end InsightBoard

namespace InsightBoard

/-! ### Persistence layer (`DependencyService.create_dependency`,
`build_dependency_graph`) -/

/-- A task record (the columns the verified claims consume). -/
structure TaskRec where
  id : String
  transcript_id : String
  title : String
  estimated_hours : Option ℚ
deriving Repr, DecidableEq

/-- A dependency record: `task_id` depends on `depends_on_task_id`. -/
structure DepRec where
  task_id : String
  depends_on_task_id : String
deriving Repr, DecidableEq

/-- The persisted state: task and dependency tables. -/
structure DB where
  tasks : List TaskRec
  deps : List DepRec
deriving Repr, DecidableEq

/-- The errors `create_dependency` can raise
(`app/core/exceptions.py`). -/
inductive DepError
  | validation (msg : String)
  | notFound (resource ident : String)
  | cyclic (cycle : List String)
deriving Repr, DecidableEq

/-- Python truthiness fallback `x or default` applied to an optional
float: `None` and `0.0` are both falsy. -/
def pyOr (x : Option ℚ) (d : ℚ) : ℚ :=
  match x with
  | none => d
  | some v => if v = 0 then d else v

/-- `DependencyService.build_dependency_graph` (lines 232–279): nodes
from the transcript's tasks in table order with
`duration = task.estimated_hours or 4`, then one edge
(prerequisite → dependent) per dependency whose dependent task belongs
to the transcript (`list_dependencies_for_transcript`). -/
def buildDependencyGraph (db : DB) (transcriptId : String) : DiGraph :=
  let tasks := db.tasks.filter (fun t => t.transcript_id == transcriptId)
  let g0 : DiGraph :=
    { nodes := tasks.map (fun t => ⟨t.id, some t.title, some (pyOr t.estimated_hours 4)⟩)
      edges := [] }
  let tids := tasks.map (·.id)
  let deps := db.deps.filter (fun d => tids.any (fun i => i == d.task_id))
  deps.foldl (fun g d => g.addEdge d.depends_on_task_id d.task_id) g0

/-- Walk backwards through predecessors inside `cur` (the non-peelable
core), extending the path until a node repeats, then cut the cycle.
Models the cycle reconstruction of `nx.simple_cycles(...)[0]` following
spec §4.2 (walking the active path back to the repeated node). `path`
is the walk visited so far, most recent node first. -/
def walkBack (g : DiGraph) (cur : List String) : Nat → List String → List String
  | 0, _ => []
  | fuel + 1, path =>
    match path with
    | [] => []
    | v :: _ =>
      match (g.predecessors v).find? (fun u => cur.any (fun c => c == u)) with
      | none => []
      | some p =>
        if path.any (fun x => x == p) then
          path.takeWhile (fun x => x != p) ++ [p]
        else walkBack g cur fuel (p :: path)

/-- The offending cycle reported with `CyclicDependencyError`
(models `list(nx.simple_cycles(graph))[0]`). -/
def findCycle (g : DiGraph) : List String :=
  match core g with
  | [] => []
  | v :: _ => walkBack g (core g) ((core g).length + 1) [v]

/-- `DependencyService.create_dependency` (lines 36–112), returning the
resulting persisted state together with the outcome. Every `raise`
before `db.add`/`db.commit` leaves the state unchanged; the success
path appends the new dependency row. -/
def createDependency (db : DB) (taskId dependsOnTaskId : String)
    (validateDag : Bool := true) : DB × Except DepError DepRec :=
  if taskId == dependsOnTaskId then
    (db, .error (.validation "A task cannot depend on itself"))
  else
    match db.tasks.find? (fun t => t.id == taskId) with
    | none => (db, .error (.notFound "Task" taskId))
    | some task =>
      match db.tasks.find? (fun t => t.id == dependsOnTaskId) with
      | none => (db, .error (.notFound "Task" dependsOnTaskId))
      | some dependsOn =>
        if task.transcript_id != dependsOn.transcript_id then
          (db, .error (.validation "Dependencies must be between tasks in the same transcript"))
        else if db.deps.any (fun d => d.task_id == taskId && d.depends_on_task_id == dependsOnTaskId) then
          (db, .error (.validation "This dependency already exists"))
        else
          let graph := (buildDependencyGraph db task.transcript_id).addEdge dependsOnTaskId taskId
          if validateDag && !(isDAGb graph) then
            (db, .error (.cyclic (findCycle graph)))
          else
            ({ db with deps := db.deps ++ [⟨taskId, dependsOnTaskId⟩] }, .ok ⟨taskId, dependsOnTaskId⟩)

/-- The pre-commit cycle check of `create_dependency` (lines 89–97):
add the candidate edge to the built graph and test acyclicity. -/
def wouldCreateCycle (g : DiGraph) (e : String × String) : Bool :=
  !(isDAGb (g.addEdge e.1 e.2))

/-- `DependencyService.validate_dag` (lines 281–304) on an
already-built graph: `(is_valid, cycle if found)`. -/
def validateGraph (g : DiGraph) : Bool × Option (List String) :=
  if isDAGb g then (true, none) else (false, some (findCycle g))

/-! ### Cache layer (`app/services/cache_service.py`,
`app/api/v1/tasks.py`, `app/api/v1/dependencies.py`) -/

/-- The public methods actually defined on `CacheService`
(`cache_service.py` lines 16–219), in source order. -/
def cacheServiceMethods : List String :=
  [ "set", "get", "delete", "increment"
  , "cache_analysis", "get_cached_analysis", "invalidate_analysis"
  , "cache_graph", "get_cached_graph", "health_check" ]

/-- The graph-cache key, `f"graph:{transcript_id}"`. -/
def graphKey (transcriptId : String) : String :=
  "graph:" ++ transcriptId

/-- The cache contents: key/value pairs. -/
structure CacheState where
  entries : List (String × String)
deriving Repr, DecidableEq

/-- `CacheService.get`. -/
def cacheGet (c : CacheState) (k : String) : Option String :=
  alookup c.entries k

/-- The cache-method calls each write endpoint performs after its
commit, read off the API sources: `create_task` / `delete_task` /
`complete_task` call `cache_service.invalidate_graph(...)`
(tasks.py lines 161, 401, 499), while `update_task` (tasks.py
lines 263–357), `create_dependency` and `delete_dependency`
(dependencies.py lines 84–189) perform no cache call at all. -/
def createTaskCacheCalls : List String := ["invalidate_graph"]

/-- Cache-method calls of the dependency-creation endpoint: none. -/
def createDependencyEndpointCacheCalls : List String := []

/-- Cache-method calls of the dependency-deletion endpoint: none. -/
def deleteDependencyEndpointCacheCalls : List String := []

/-- Cache-method calls of the task-update endpoint: none. -/
def updateTaskCacheCalls : List String := []

/-- The effect of the dependency-creation endpoint on the cache: it
performs no cache operation, so the cache state is unchanged. -/
def depCreateCacheEffect (c : CacheState) : CacheState := c

end InsightBoard

namespace InsightBoard

/-! ### C1: the diamond scenario -/

/-- The diamond graph of spec Scenario 2: A(2h) → B(3h), A(2h) → C(4h),
B → D(1h), C → D(1h). -/
def diamondGraph : DiGraph :=
  { nodes :=
      [ ⟨"A", some "A", some 2⟩
      , ⟨"B", some "B", some 3⟩
      , ⟨"C", some "C", some 4⟩
      , ⟨"D", some "D", some 1⟩ ]
  , edges := [("A", "B"), ("A", "C"), ("B", "D"), ("C", "D")] }

/-- Two independent tasks whose durations differ by 0.004h: the raw
slack of "B" is 0.004, above ε = 0.001, but rounds to 0. -/
def slackRoundGraph : DiGraph :=
  { nodes := [⟨"A", some "A", some 5⟩, ⟨"B", some "B", some (4996/1000)⟩]
  , edges := [] }

/-- A database with one task whose estimated hours are explicitly 0. -/
def zeroEstimateDB : DB :=
  { tasks := [⟨"A", "t1", "Task A", some 0⟩], deps := [] }

/-- A database with one task, used to probe the self-loop path of
`create_dependency`. -/
def selfLoopDB : DB :=
  { tasks := [⟨"A", "t1", "Task A", some 1⟩], deps := [] }

/-- A database with tasks A, B in one transcript and a persisted
dependency "B depends on A" (edge A→B); proposing "A depends on B"
closes the 2-cycle. -/
def cycleDB : DB :=
  { tasks := [⟨"A", "t1", "Task A", some 1⟩, ⟨"B", "t1", "Task B", some 2⟩]
  , deps := [⟨"B", "A"⟩] }

/-- A single isolated node, for probing the layout centring. -/
def singleNodeGraph : DiGraph :=
  { nodes := [⟨"A", some "A", some 1⟩], edges := [] }

/-- Spec Scenario 4: A has outgoing edges to B, C, D and no incoming
edge. -/
def fanOutGraph : DiGraph :=
  { nodes :=
      [ ⟨"A", some "A", some 1⟩
      , ⟨"B", some "B", some 1⟩
      , ⟨"C", some "C", some 1⟩
      , ⟨"D", some "D", some 1⟩ ]
  , edges := [("A", "B"), ("A", "C"), ("A", "D")] }

set_option maxHeartbeats 3200000 in
/-- C1: On the diamond graph with durations A=2h, B=3h, C=4h, D=1h and
edges A→B, A→C, B→D, C→D, `compute_critical_path` returns total
duration 7, slack map {A:0, B:1, C:0, D:0}, and the critical node
sequence [A, C, D] (the zero-slack nodes in topological order). -/
theorem diamond_critical_path :
    computeCriticalPath diamondGraph =
      .ok (["A", "C", "D"], 7, [("A", 0), ("B", 1), ("C", 0), ("D", 0)]) := by
  have htopo : topoSort diamondGraph = ["A", "B", "C", "D"] := by rfl
  have hdag : isDAGb diamondGraph = true := by rfl
  have hpA : diamondGraph.predecessors "A" = [] := by rfl
  have hpB : diamondGraph.predecessors "B" = ["A"] := by rfl
  have hpC : diamondGraph.predecessors "C" = ["A"] := by rfl
  have hpD : diamondGraph.predecessors "D" = ["B", "C"] := by rfl
  have hsA : diamondGraph.successors "A" = ["B", "C"] := by rfl
  have hsB : diamondGraph.successors "B" = ["D"] := by rfl
  have hsC : diamondGraph.successors "C" = ["D"] := by rfl
  have hsD : diamondGraph.successors "D" = [] := by rfl
  have hdA : durOf diamondGraph "A" = 2 := by rfl
  have hdB : durOf diamondGraph "B" = 3 := by rfl
  have hdC : durOf diamondGraph "C" = 4 := by rfl
  have hdD : durOf diamondGraph "D" = 1 := by rfl
  have hfwd : forwardPass diamondGraph ["A", "B", "C", "D"] =
      ([("A", 0), ("B", 2), ("C", 2), ("D", 6)],
       [("A", 2), ("B", 5), ("C", 6), ("D", 7)]) := by
    simp only [forwardPass, List.foldl_cons, List.foldl_nil,
      hpA, hpB, hpC, hpD, hdA, hdB, hdC, hdD]
    simp [lookupQ, alookup, maxQ]
    norm_num [max_def]
  have htot : totalDur diamondGraph ["A", "B", "C", "D"] = 7 := by
    rw [totalDur, hfwd]
    simp [lookupQ, alookup, maxQ]
    norm_num [max_def]
  have hbwd : backwardPass diamondGraph ["A", "B", "C", "D"] 7 =
      ([("D", 7), ("C", 6), ("B", 6), ("A", 2)],
       [("D", 6), ("C", 2), ("B", 3), ("A", 0)]) := by
    simp only [backwardPass, List.reverse_cons, List.reverse_nil, List.nil_append,
      List.cons_append, List.foldl_cons, List.foldl_nil,
      hsA, hsB, hsC, hsD, hdA, hdB, hdC, hdD]
    simp [lookupQ, alookup, minQ]
    norm_num [min_def]
  rw [computeCriticalPath]
  rw [if_neg (by simp [diamondGraph]), if_neg (by simp [hdag])]
  simp only [htopo, htot, hfwd, hbwd]
  simp only [List.map_cons, List.map_nil, List.filter_cons, List.filter_nil]
  simp [lookupQ, alookup]
  norm_num [pyRound2, max_def, Int.floor_eq_iff]

end InsightBoard

namespace InsightBoard

/-! ## Bridge lemmas between the Bool-level code and propositions -/

theorem edgeB_iff (g : DiGraph) (u v : String) :
    g.edgeB u v = true ↔ (u, v) ∈ g.edges := by
  simp only [DiGraph.edgeB, List.any_eq_true, Bool.and_eq_true, beq_iff_eq]
  constructor
  · rintro ⟨e, he, h1, h2⟩
    obtain ⟨e1, e2⟩ := e
    cases h1; cases h2; exact he
  · intro h
    exact ⟨(u, v), h, rfl, rfl⟩

theorem mem_predecessors {g : DiGraph} {u v : String} :
    u ∈ g.predecessors v ↔ (u, v) ∈ g.edges := by
  simp only [DiGraph.predecessors, List.mem_map, List.mem_filter, beq_iff_eq]
  constructor
  · rintro ⟨e, ⟨he, h2⟩, h1⟩
    obtain ⟨e1, e2⟩ := e
    cases h1; cases h2; exact he
  · intro h
    exact ⟨(u, v), ⟨h, rfl⟩, rfl⟩

theorem mem_successors {g : DiGraph} {u v : String} :
    v ∈ g.successors u ↔ (u, v) ∈ g.edges := by
  simp only [DiGraph.successors, List.mem_map, List.mem_filter, beq_iff_eq]
  constructor
  · rintro ⟨e, ⟨he, h1⟩, h2⟩
    obtain ⟨e1, e2⟩ := e
    cases h1; cases h2; exact he
  · intro h
    exact ⟨(u, v), ⟨h, rfl⟩, rfl⟩

theorem any_beq_iff_mem {α : Type} [BEq α] [LawfulBEq α] (l : List α) (v : α) :
    (l.any fun z => z == v) = true ↔ v ∈ l := by
  simp only [List.any_eq_true, beq_iff_eq]
  constructor
  · rintro ⟨z, hz, rfl⟩; exact hz
  · intro h; exact ⟨v, h, rfl⟩

theorem mem_zeroIndeg {g : DiGraph} {rem : List String} {v : String} :
    v ∈ zeroIndeg g rem ↔ v ∈ rem ∧ ∀ u ∈ rem, ¬ g.edgeB u v = true := by
  simp only [zeroIndeg, List.mem_filter, Bool.not_eq_true', List.any_eq_false]

theorem bool_eq_of_iff {a b : Bool} (h : a = true ↔ b = true) : a = b := by
  cases a <;> cases b <;> simp_all

/-! ## Correctness of the Kahn peel -/

theorem kahn_filter_eq (g : DiGraph) (rem : List String) :
    rem.filter (fun v => !((zeroIndeg g rem).any (fun z => z == v))) =
    rem.filter (fun v => !((fun w => !(rem.any (fun u => g.edgeB u w))) v)) := by
  apply List.filter_congr
  intro v hv
  have h : ((zeroIndeg g rem).any (fun z => z == v)) =
      (fun w => !(rem.any (fun u => g.edgeB u w))) v := by
    apply bool_eq_of_iff
    rw [any_beq_iff_mem]
    constructor
    · intro hz
      exact (List.mem_filter.mp hz).2
    · intro hb
      exact List.mem_filter.mpr ⟨hv, hb⟩
  rw [h]

theorem kahnAux_cons_eq (g : DiGraph) (fuel : Nat) (rem : List String)
    (hz : (zeroIndeg g rem).isEmpty = false) :
    kahnAux g (fuel + 1) rem =
      ((zeroIndeg g rem) ::
        (kahnAux g fuel (rem.filter (fun v => !((zeroIndeg g rem).any (fun z => z == v))))).1,
       (kahnAux g fuel (rem.filter (fun v => !((zeroIndeg g rem).any (fun z => z == v))))).2) := by
  simp only [kahnAux]
  rw [if_neg (by simp [hz])]

theorem kahnAux_perm (g : DiGraph) :
    ∀ fuel rem, ((kahnAux g fuel rem).1.flatten ++ (kahnAux g fuel rem).2).Perm rem := by
  intro fuel
  induction fuel with
  | zero => intro rem; simp [kahnAux]
  | succ fuel ih =>
    intro rem
    cases hz : (zeroIndeg g rem).isEmpty with
    | true => simp [kahnAux, hz]
    | false =>
      rw [kahnAux_cons_eq g fuel rem hz]
      simp only [List.flatten_cons, List.append_assoc]
      refine List.Perm.trans (List.Perm.append_left (zeroIndeg g rem) (ih _)) ?_
      rw [kahn_filter_eq g rem]
      exact List.filter_append_perm _ rem

theorem kahnAux_snd_fix (g : DiGraph) :
    ∀ fuel rem, rem.length ≤ fuel →
      (kahnAux g fuel rem).2 = [] ∨
        ((kahnAux g fuel rem).2 ≠ [] ∧
          ∀ v ∈ (kahnAux g fuel rem).2, ∃ u ∈ (kahnAux g fuel rem).2, g.edgeB u v = true) := by
  intro fuel
  induction fuel with
  | zero =>
    intro rem h
    left
    have : rem = [] := List.eq_nil_of_length_eq_zero (Nat.le_zero.mp h)
    simp [kahnAux, this]
  | succ fuel ih =>
    intro rem h
    cases hz : (zeroIndeg g rem).isEmpty with
    | true =>
      have hsnd : (kahnAux g (fuel + 1) rem).2 = rem := by
        simp only [kahnAux]
        rw [if_pos (by simp [hz])]
      rcases eq_or_ne rem [] with hnil | hne
      · left; rw [hsnd, hnil]
      · right
        rw [hsnd]
        refine ⟨hne, ?_⟩
        intro v hv
        have hznil : zeroIndeg g rem = [] := List.isEmpty_iff.mp hz
        have hnz : v ∉ zeroIndeg g rem := by rw [hznil]; exact List.not_mem_nil v
        rw [mem_zeroIndeg] at hnz
        push_neg at hnz
        obtain ⟨u, hu, he⟩ := hnz hv
        exact ⟨u, hu, he⟩
    | false =>
      rw [kahnAux_cons_eq g fuel rem hz]
      apply ih
      have hlt : (rem.filter (fun v => !((zeroIndeg g rem).any (fun z => z == v)))).length
          < rem.length := by
        rw [List.length_filter_lt_length_iff_exists]
        have hzne : zeroIndeg g rem ≠ [] := by
          intro hnil; rw [hnil] at hz; simp at hz
        obtain ⟨z, hzmem⟩ := List.exists_mem_of_ne_nil _ hzne
        refine ⟨z, (List.mem_filter.mp hzmem).1, ?_⟩
        simp [(any_beq_iff_mem (zeroIndeg g rem) z).mpr hzmem]
      omega

theorem kahnAux_snd_ne_nil (g : DiGraph) (S : List String) (hS : S ≠ [])
    (hpred : ∀ u ∈ S, ∃ w ∈ S, g.edgeB w u = true) :
    ∀ fuel rem, (∀ u ∈ S, u ∈ rem) → (kahnAux g fuel rem).2 ≠ [] := by
  have hSne : ∀ rem : List String, (∀ u ∈ S, u ∈ rem) → rem ≠ [] := by
    intro rem hsub hnil
    obtain ⟨x, hx⟩ := List.exists_mem_of_ne_nil _ hS
    have hmem := hsub x hx
    rw [hnil] at hmem
    exact List.not_mem_nil x hmem
  intro fuel
  induction fuel with
  | zero =>
    intro rem hsub
    simpa [kahnAux] using hSne rem hsub
  | succ fuel ih =>
    intro rem hsub
    cases hz : (zeroIndeg g rem).isEmpty with
    | true =>
      have hsnd : (kahnAux g (fuel + 1) rem).2 = rem := by
        simp only [kahnAux]
        rw [if_pos (by simp [hz])]
      rw [hsnd]
      exact hSne rem hsub
    | false =>
      rw [kahnAux_cons_eq g fuel rem hz]
      apply ih
      intro u hu
      rw [List.mem_filter]
      refine ⟨hsub u hu, ?_⟩
      obtain ⟨w, hw, hedge⟩ := hpred u hu
      have hnotzero : u ∉ zeroIndeg g rem := by
        rw [mem_zeroIndeg]
        rintro ⟨-, hall⟩
        exact hall w (hsub w hw) hedge
      simp only [Bool.not_eq_true']
      rw [← Bool.not_eq_true]
      intro hany
      exact hnotzero ((any_beq_iff_mem _ _).mp hany)

theorem topoSort_core_perm (g : DiGraph) :
    ((topoSort g ++ core g)).Perm g.nodeIds :=
  kahnAux_perm g g.nodeIds.length g.nodeIds

theorem core_fix (g : DiGraph) :
    core g = [] ∨ (core g ≠ [] ∧ ∀ v ∈ core g, ∃ u ∈ core g, g.edgeB u v = true) :=
  kahnAux_snd_fix g g.nodeIds.length g.nodeIds le_rfl

theorem topoSort_perm (g : DiGraph) (h : isDAGb g = true) :
    (topoSort g).Perm g.nodeIds := by
  have hc : core g = [] := List.isEmpty_iff.mp h
  have := topoSort_core_perm g
  rwa [hc, List.append_nil] at this

theorem mem_topoSort (g : DiGraph) (h : isDAGb g = true) (x : String) :
    x ∈ topoSort g ↔ x ∈ g.nodeIds :=
  (topoSort_perm g h).mem_iff

theorem topoSort_nodup (g : DiGraph) (h : g.nodeIds.Nodup) :
    (topoSort g).Nodup :=
  ((topoSort_core_perm g).nodup_iff.mpr h).of_append_left

theorem core_nodup (g : DiGraph) (h : g.nodeIds.Nodup) :
    (core g).Nodup :=
  List.Nodup.of_append_right ((topoSort_core_perm g).nodup_iff.mpr h)

theorem core_subset_nodeIds (g : DiGraph) (x : String) (hx : x ∈ core g) :
    x ∈ g.nodeIds :=
  (topoSort_core_perm g).mem_iff.mp (List.mem_append_right _ hx)

/-! ## Acyclicity characterization -/

theorem rtg_pred_list (g : DiGraph) :
    ∀ {a b : String}, Relation.ReflTransGen (fun x y => g.edgeB x y = true) a b →
      ∃ S : List String, a ∈ S ∧ b ∈ S ∧
        ∀ x ∈ S, x = a ∨ ∃ y ∈ S, g.edgeB y x = true := by
  intro a b h
  induction h with
  | refl => exact ⟨[a], by simp, by simp, by simp⟩
  | tail _ hstep ih =>
    rename_i b' c' _
    obtain ⟨S, haS, hbS, hprop⟩ := ih
    refine ⟨c' :: S, List.mem_cons_of_mem _ haS, List.mem_cons_self _ _, ?_⟩
    intro x hx
    rcases List.mem_cons.mp hx with rfl | hxS
    · exact Or.inr ⟨b', List.mem_cons_of_mem _ hbS, hstep⟩
    · rcases hprop x hxS with hxa | ⟨y, hyS, hy⟩
      · exact Or.inl hxa
      · exact Or.inr ⟨y, List.mem_cons_of_mem _ hyS, hy⟩

theorem cyclic_pred_list (g : DiGraph) (h : Cyclic g) :
    ∃ S : List String, S ≠ [] ∧ ∀ x ∈ S, ∃ y ∈ S, g.edgeB y x = true := by
  obtain ⟨v, hv⟩ := h
  obtain ⟨b, hrtg, hstep⟩ := (Relation.TransGen.tail'_iff).mp hv
  obtain ⟨S, hvS, hbS, hprop⟩ := rtg_pred_list g hrtg
  refine ⟨S, by rintro rfl; exact (List.not_mem_nil v) hvS, ?_⟩
  intro x hx
  rcases hprop x hx with rfl | hex
  · exact ⟨b, hbS, hstep⟩
  · exact hex

theorem cyclic_not_dag (g : DiGraph) (hwf : WF g) (h : Cyclic g) :
    isDAGb g = false := by
  obtain ⟨S, hSne, hSfix⟩ := cyclic_pred_list g h
  have hsub : ∀ u ∈ S, u ∈ g.nodeIds := by
    intro u hu
    obtain ⟨y, _, hy⟩ := hSfix u hu
    exact (hwf.1 (y, u) ((edgeB_iff g y u).mp hy)).2
  have hne : (kahnAux g g.nodeIds.length g.nodeIds).2 ≠ [] :=
    kahnAux_snd_ne_nil g S hSne hSfix g.nodeIds.length g.nodeIds hsub
  simp only [isDAGb, core]
  rwa [List.isEmpty_eq_false]

theorem transGen_iterate_pred (g : DiGraph) (S : List String) (f : String → String)
    (hf : ∀ v ∈ S, f v ∈ S ∧ g.edgeB (f v) v = true)
    (x : String) (hx : x ∈ S) :
    ∀ d, 1 ≤ d → Relation.TransGen (fun a b => g.edgeB a b = true) (f^[d] x) x := by
  have hmem : ∀ k, f^[k] x ∈ S := by
    intro k
    induction k with
    | zero => exact hx
    | succ k ihk =>
      rw [Function.iterate_succ_apply']
      exact (hf _ ihk).1
  intro d
  induction d with
  | zero => intro h; omega
  | succ d ih =>
    intro _
    cases d with
    | zero =>
      rw [Function.iterate_one]
      exact Relation.TransGen.single (hf x hx).2
    | succ d' =>
      have hstep : g.edgeB (f^[d' + 1 + 1] x) (f^[d' + 1] x) = true := by
        rw [Function.iterate_succ_apply']
        exact (hf _ (hmem (d' + 1))).2
      exact Relation.TransGen.head hstep (ih (Nat.le_add_left 1 d'))

theorem cyclic_of_fixpoint (g : DiGraph) (S : List String) (hne : S ≠ [])
    (hfix : ∀ v ∈ S, ∃ u ∈ S, g.edgeB u v = true) : Cyclic g := by
  classical
  let f : String → String :=
    fun v => if h : ∃ u ∈ S, g.edgeB u v = true then h.choose else v
  have hf : ∀ v ∈ S, f v ∈ S ∧ g.edgeB (f v) v = true := by
    intro v hv
    have hex := hfix v hv
    simp only [f, dif_pos hex]
    obtain ⟨hu, he⟩ := hex.choose_spec
    exact ⟨hu, he⟩
  obtain ⟨v₀, hv₀⟩ := List.exists_mem_of_ne_nil _ hne
  have hmem : ∀ k, f^[k] v₀ ∈ S := by
    intro k
    induction k with
    | zero => exact hv₀
    | succ k ihk =>
      rw [Function.iterate_succ_apply']
      exact (hf _ ihk).1
  have hmap : ∀ k ∈ Finset.range (S.length + 1), f^[k] v₀ ∈ S.toFinset := by
    intro k _
    exact List.mem_toFinset.mpr (hmem k)
  have hcard : S.toFinset.card < (Finset.range (S.length + 1)).card := by
    rw [Finset.card_range]
    exact Nat.lt_succ_of_le (List.toFinset_card_le S)
  obtain ⟨i, hi, j, hj, hij, heq⟩ :=
    Finset.exists_ne_map_eq_of_card_lt_of_maps_to hcard hmap
  have hmain : ∀ i j : Nat, i < j → f^[i] v₀ = f^[j] v₀ → Cyclic g := by
    intro i j hlt he
    have hd : j - i + i = j := Nat.sub_add_cancel (Nat.le_of_lt hlt)
    have : Relation.TransGen (fun a b => g.edgeB a b = true) (f^[j - i] (f^[i] v₀)) (f^[i] v₀) :=
      transGen_iterate_pred g S f hf (f^[i] v₀) (hmem i) (j - i) (by omega)
    rw [← Function.iterate_add_apply, hd, ← he] at this
    exact ⟨f^[i] v₀, this⟩
  rcases Nat.lt_or_ge i j with hlt | hge
  · exact hmain i j hlt heq
  · exact hmain j i (Nat.lt_of_le_of_ne hge (fun h => hij h.symm)) heq.symm

theorem not_dag_cyclic (g : DiGraph) (h : isDAGb g = false) : Cyclic g := by
  rcases core_fix g with hc | ⟨hne, hfix⟩
  · simp [isDAGb, hc] at h
  · exact cyclic_of_fixpoint g (core g) hne hfix

theorem isDAGb_iff_not_cyclic (g : DiGraph) (hwf : WF g) :
    isDAGb g = true ↔ ¬ Cyclic g := by
  constructor
  · intro hd hcyc
    rw [cyclic_not_dag g hwf hcyc] at hd
    exact Bool.false_ne_true hd
  · intro hnc
    cases hd : isDAGb g with
    | true => rfl
    | false => exact absurd (not_dag_cyclic g hd) hnc

/-! ## The Kahn order respects edges -/

theorem append_cons_split {α : Type} :
    ∀ (a : List α) {b l₁ l₂ : List α} {v : α}, a ++ b = l₁ ++ v :: l₂ → v ∉ a →
      ∃ m, l₁ = a ++ m ∧ b = m ++ v :: l₂ := by
  intro a
  induction a with
  | nil =>
    intro b l₁ l₂ v h _
    exact ⟨l₁, by simp, by simpa using h⟩
  | cons x a' ih =>
    intro b l₁ l₂ v h hv
    cases l₁ with
    | nil =>
      simp only [List.cons_append, List.nil_append] at h
      injection h with h1 _
      subst h1
      exact absurd (List.mem_cons_self x a') hv
    | cons y l₁' =>
      simp only [List.cons_append] at h
      injection h with h1 h2
      subst h1
      obtain ⟨m, hm1, hm2⟩ := ih h2 (fun hmem => hv (List.mem_cons_of_mem _ hmem))
      exact ⟨m, by rw [hm1, List.cons_append], hm2⟩

theorem kahn_flatten_respects (g : DiGraph) :
    ∀ fuel rem, ∀ u v, g.edgeB u v = true → u ∈ rem →
      ∀ l₁ l₂, (kahnAux g fuel rem).1.flatten = l₁ ++ v :: l₂ → u ∈ l₁ := by
  intro fuel
  induction fuel with
  | zero =>
    intro rem u v _ _ l₁ l₂ h
    simp only [kahnAux, List.flatten_nil] at h
    exfalso
    have hlen := congrArg List.length h
    simp only [List.length_nil, List.length_append, List.length_cons] at hlen
    omega
  | succ fuel ih =>
    intro rem u v he hu l₁ l₂ h
    cases hz : (zeroIndeg g rem).isEmpty with
    | true =>
      have hfst : (kahnAux g (fuel + 1) rem).1 = [] := by
        simp only [kahnAux]
        rw [if_pos (by simp [hz])]
      rw [hfst] at h
      simp only [List.flatten_nil] at h
      exfalso
      have hlen := congrArg List.length h
      simp only [List.length_nil, List.length_append, List.length_cons] at hlen
      omega
    | false =>
      rw [kahnAux_cons_eq g fuel rem hz] at h
      simp only [List.flatten_cons] at h
      have hvz : v ∉ zeroIndeg g rem := by
        rw [mem_zeroIndeg]
        rintro ⟨-, hall⟩
        exact hall u hu he
      obtain ⟨m, hm1, hm2⟩ := append_cons_split _ h hvz
      by_cases huz : u ∈ zeroIndeg g rem
      · rw [hm1]
        exact List.mem_append_left _ huz
      · have hu' : u ∈ rem.filter (fun w => !((zeroIndeg g rem).any (fun z => z == w))) := by
          rw [List.mem_filter]
          refine ⟨hu, ?_⟩
          simp only [Bool.not_eq_true']
          rw [← Bool.not_eq_true]
          intro hany
          exact huz ((any_beq_iff_mem _ _).mp hany)
        rw [hm1]
        exact List.mem_append_right _ (ih _ u v he hu' m l₂ hm2)

theorem topoSort_respects (g : DiGraph) (u v : String) (he : g.edgeB u v = true)
    (hu : u ∈ g.nodeIds) :
    ∀ l₁ l₂, topoSort g = l₁ ++ v :: l₂ → u ∈ l₁ :=
  fun l₁ l₂ h => kahn_flatten_respects g g.nodeIds.length g.nodeIds u v he hu l₁ l₂ h

/-! ## The reported cycle is a closed walk -/

theorem dropWhile_head_false {α : Type} (p : α → Bool) :
    ∀ (l : List α) x xs, l.dropWhile p = x :: xs → p x = false := by
  intro l
  induction l with
  | nil => intro x xs h; simp [List.dropWhile] at h
  | cons a l' ih =>
    intro x xs h
    cases hpa : p a with
    | true =>
      rw [List.dropWhile_cons, if_pos (by simp [hpa])] at h
      exact ih x xs h
    | false =>
      rw [List.dropWhile_cons, if_neg (by simp [hpa])] at h
      injection h with h1 _
      subst h1
      exact hpa

theorem walkBack_spec (g : DiGraph) (c : List String)
    (hfix : ∀ v ∈ c, ∃ u ∈ c, g.edgeB u v = true) :
    ∀ fuel path, path ≠ [] → path.Nodup → (∀ x ∈ path, x ∈ c) →
      List.Chain' (fun a b => g.edgeB a b = true) path →
      c.length + 1 ≤ fuel + path.length →
      IsClosedWalk g (walkBack g c fuel path) := by
  intro fuel
  induction fuel with
  | zero =>
    intro path hne hnd hsub _ hfuel
    exfalso
    have hle : path.length ≤ c.length :=
      (hnd.subperm (fun x hx => hsub x hx)).length_le
    omega
  | succ fuel ih =>
    intro path hne hnd hsub hchain hfuel
    match hpath : path with
    | [] => exact absurd rfl hne
    | v :: rest =>
      rw [walkBack]
      have hvc : v ∈ c := hsub v (List.mem_cons_self v rest)
      obtain ⟨u, huc, hue⟩ := hfix v hvc
      have hfind : ((g.predecessors v).find? (fun w => c.any (fun c' => c' == w))).isSome := by
        rw [List.find?_isSome]
        exact ⟨u, mem_predecessors.mpr ((edgeB_iff g u v).mp hue),
          (any_beq_iff_mem c u).mpr huc⟩
      match hf : (g.predecessors v).find? (fun w => c.any (fun c' => c' == w)) with
      | none => rw [hf] at hfind; simp at hfind
      | some p =>
        change IsClosedWalk g
          (if ((v :: rest).any fun x => x == p) = true then
            List.takeWhile (fun x => x != p) (v :: rest) ++ [p]
          else walkBack g c fuel (p :: v :: rest))
        have hps : (c.any (fun c' => c' == p)) = true :=
          @List.find?_some String (fun w => c.any (fun c' => c' == w)) p (g.predecessors v) hf
        have hpc : p ∈ c := (any_beq_iff_mem c p).mp hps
        have hppred : p ∈ g.predecessors v :=
          @List.mem_of_find?_eq_some String (fun w => c.any (fun c' => c' == w)) p (g.predecessors v) hf
        have hpe : g.edgeB p v = true := (edgeB_iff g p v).mpr (mem_predecessors.mp hppred)
        cases hmem : (v :: rest).any (fun x => x == p) with
        | true =>
          have hpmem : p ∈ v :: rest := (any_beq_iff_mem _ _).mp hmem
          rw [if_pos rfl]
          by_cases hvp : v = p
          · subst hvp
            rw [List.takeWhile_cons, if_neg (by simp)]
            simp only [List.nil_append, IsClosedWalk, List.getLastD]
            exact ⟨List.Chain.nil, hpe⟩
          · have htw : (v :: rest).takeWhile (fun x => x != p) =
                v :: rest.takeWhile (fun x => x != p) := by
              rw [List.takeWhile_cons, if_pos (by simp [hvp])]
            have hdne : (v :: rest).dropWhile (fun x => x != p) ≠ [] := by
              intro hnil
              have hall := List.dropWhile_eq_nil_iff.mp hnil p hpmem
              simp at hall
            obtain ⟨x0, t', hdw0⟩ : ∃ x0 t',
                (v :: rest).dropWhile (fun x => x != p) = x0 :: t' := by
              cases hd : (v :: rest).dropWhile (fun x => x != p) with
              | nil => exact absurd hd hdne
              | cons a b => exact ⟨a, b, rfl⟩
            have hx0 : x0 = p := by
              have hfalse := dropWhile_head_false _ _ _ _ hdw0
              simpa using hfalse
            rw [hx0] at hdw0
            have hsplit : ((v :: rest).takeWhile (fun x => x != p) ++ [p]) ++ t' = v :: rest := by
              rw [List.append_assoc, List.singleton_append, ← hdw0]
              exact List.takeWhile_append_dropWhile (fun x => x != p) (v :: rest)
            have hchain2 : List.Chain' (fun a b => g.edgeB a b = true)
                ((v :: rest).takeWhile (fun x => x != p) ++ [p]) :=
              hchain.prefix ⟨t', hsplit⟩
            rw [htw] at hchain2 ⊢
            simp only [List.cons_append] at hchain2 ⊢
            simp only [IsClosedWalk]
            refine ⟨hchain2, ?_⟩
            rw [List.getLastD_concat]
            exact hpe
        | false =>
          simp only [Bool.false_eq_true, if_false]
          apply ih (p :: v :: rest)
          · exact List.cons_ne_nil p _
          · exact List.nodup_cons.mpr
              ⟨fun hc => by simp [(any_beq_iff_mem _ _).mpr hc] at hmem, hnd⟩
          · intro x hx
            rcases List.mem_cons.mp hx with rfl | hx'
            · exact hpc
            · exact hsub x hx'
          · exact List.chain'_cons.mpr ⟨hpe, hchain⟩
          · simp only [List.length_cons] at hfuel ⊢
            omega

theorem findCycle_closedWalk (g : DiGraph) (hdag : isDAGb g = false) :
    IsClosedWalk g (findCycle g) := by
  rcases core_fix g with hc | ⟨hne, hfix⟩
  · rw [isDAGb, hc] at hdag
    simp at hdag
  · obtain ⟨v, rest, hvr⟩ : ∃ v rest, core g = v :: rest := by
      cases hc : core g with
      | nil => exact absurd hc hne
      | cons a b => exact ⟨a, b, rfl⟩
    have hres : findCycle g = walkBack g (core g) ((core g).length + 1) [v] := by
      rw [findCycle]
      rw [hvr]
    rw [hres]
    apply walkBack_spec g (core g) hfix
    · exact List.cons_ne_nil v []
    · exact List.nodup_singleton v
    · intro x hx
      rw [List.mem_singleton] at hx
      rw [hx, hvr]
      exact List.mem_cons_self v rest
    · exact List.chain'_singleton v
    · simp

theorem chain_target_mem (g : DiGraph) (hwf : WF g) :
    ∀ rest v, List.Chain (fun a b => g.edgeB a b = true) v rest →
      ∀ x ∈ rest, x ∈ g.nodeIds := by
  intro rest
  induction rest with
  | nil => intro v _ x hx; simp at hx
  | cons b l ih =>
    intro v hchain x hx
    rcases List.chain_cons.mp hchain with ⟨hvb, hrest⟩
    rcases List.mem_cons.mp hx with rfl | hx'
    · exact (hwf.1 (v, x) ((edgeB_iff g v x).mp hvb)).2
    · exact ih b hrest x hx'

theorem closedWalk_subset (g : DiGraph) (hwf : WF g) (c : List String)
    (hc : IsClosedWalk g c) : ∀ x ∈ c, x ∈ g.nodeIds := by
  match c with
  | [] => simp [IsClosedWalk] at hc
  | v :: rest =>
    obtain ⟨hchain, hclose⟩ := hc
    intro x hx
    rcases List.mem_cons.mp hx with rfl | hx'
    · exact (hwf.1 (rest.getLastD x, x) ((edgeB_iff g _ x).mp hclose)).2
    · exact chain_target_mem g hwf rest v hchain x hx'

/-! ## Well-formedness preservation -/

theorem addNode_nodeIds (g : DiGraph) (v : String) :
    (g.addNode v).nodeIds = if v ∈ g.nodeIds then g.nodeIds else g.nodeIds ++ [v] := by
  by_cases h : v ∈ g.nodeIds
  · rw [if_pos h, DiGraph.addNode, if_pos (by rwa [any_beq_iff_mem])]
  · rw [if_neg h, DiGraph.addNode, if_neg ?_]
    · simp [DiGraph.nodeIds]
    · rw [any_beq_iff_mem]
      exact h

theorem addNode_edges (g : DiGraph) (v : String) :
    (g.addNode v).edges = g.edges := by
  rw [DiGraph.addNode]
  split <;> rfl

theorem mem_addNode_nodeIds (g : DiGraph) (v x : String) :
    x ∈ (g.addNode v).nodeIds ↔ x ∈ g.nodeIds ∨ x = v := by
  rw [addNode_nodeIds]
  split <;> rename_i h
  · constructor
    · exact Or.inl
    · rintro (hx | rfl)
      · exact hx
      · exact h
  · simp

theorem addNode_wf (g : DiGraph) (v : String) (hwf : WF g) : WF (g.addNode v) := by
  obtain ⟨hedges, hnd⟩ := hwf
  constructor
  · intro e he
    rw [addNode_edges] at he
    obtain ⟨h1, h2⟩ := hedges e he
    rw [mem_addNode_nodeIds, mem_addNode_nodeIds]
    exact ⟨Or.inl h1, Or.inl h2⟩
  · rw [addNode_nodeIds]
    split <;> rename_i h
    · exact hnd
    · simpa [List.nodup_append] using ⟨hnd, h⟩

theorem addEdge_nodeIds_mem (g : DiGraph) (u v x : String) :
    x ∈ (g.addEdge u v).nodeIds ↔ x ∈ g.nodeIds ∨ x = u ∨ x = v := by
  rw [DiGraph.addEdge]
  have hn : ∀ h : DiGraph, h.nodeIds = ({ h with edges := h.edges ++ [(u, v)] } : DiGraph).nodeIds :=
    fun h => rfl
  split <;>
    simp only [← hn, mem_addNode_nodeIds] <;> tauto

theorem addEdge_edges_mem (g : DiGraph) (u v : String) (e : String × String) :
    e ∈ (g.addEdge u v).edges ↔ e ∈ g.edges ∨ e = (u, v) := by
  rw [DiGraph.addEdge]
  split <;> rename_i h
  · rw [addNode_edges, addNode_edges]
    constructor
    · exact Or.inl
    · rintro (he | rfl)
      · exact he
      · have hm := (edgeB_iff _ u v).mp h
        rw [addNode_edges, addNode_edges] at hm
        exact hm
  · simp only [addNode_edges, List.mem_append, List.mem_singleton]

theorem addEdge_wf (g : DiGraph) (u v : String) (hwf : WF g) : WF (g.addEdge u v) := by
  have hwf2 : WF ((g.addNode u).addNode v) := addNode_wf _ v (addNode_wf g u hwf)
  rw [DiGraph.addEdge]
  split <;> rename_i h
  · exact hwf2
  · obtain ⟨hedges, hnd⟩ := hwf2
    constructor
    · intro e he
      simp only [List.mem_append, List.mem_singleton] at he
      rcases he with he | rfl
      · exact hedges e he
      · constructor
        · show u ∈ ((g.addNode u).addNode v).nodeIds
          rw [mem_addNode_nodeIds, mem_addNode_nodeIds]
          tauto
        · show v ∈ ((g.addNode u).addNode v).nodeIds
          rw [mem_addNode_nodeIds]
          tauto
    · exact hnd

/-! ## C3: the pre-commit check agrees with full validation -/

/-- C3: For every graph and every candidate edge, the pre-commit cycle
check answers true exactly when the graph with the candidate edge added
fails full-graph validation:
`wouldCreateCycle g e = not (validateGraph (g ∪ {e})).isAcyclic`; and
for every (well-formed) DAG, `validateGraph` returns
`isAcyclic = true`. -/
theorem wouldCreateCycle_iff_validateGraph :
    (∀ (g : DiGraph) (e : String × String),
      wouldCreateCycle g e = !(validateGraph (g.addEdge e.1 e.2)).1) ∧
    (∀ g : DiGraph, WF g → ¬ Cyclic g → (validateGraph g).1 = true) := by
  constructor
  · intro g e
    cases h : isDAGb (g.addEdge e.1 e.2) with
    | true => simp [wouldCreateCycle, validateGraph, h]
    | false => simp [wouldCreateCycle, validateGraph, h]
  · intro g hwf hnc
    rw [validateGraph, if_pos ((isDAGb_iff_not_cyclic g hwf).mpr hnc)]

theorem diamondGraph_wf : WF diamondGraph :=
  ⟨by decide, by decide⟩

/-- Witness for C3 at the diamond DAG. -/
theorem wouldCreateCycle_iff_validateGraph_witness :
    (validateGraph diamondGraph).1 = true :=
  wouldCreateCycle_iff_validateGraph.2 diamondGraph diamondGraph_wf
    (fun hcyc => by
      have hfalse := cyclic_not_dag diamondGraph diamondGraph_wf hcyc
      rw [show isDAGb diamondGraph = true from rfl] at hfalse
      exact absurd hfalse (by decide))

/-! ## C7: `compute_critical_path` errors exactly on cyclic input -/

/-- C7: `compute_critical_path` raises `CyclicDependencyError` if and
only if its input graph contains a cycle (it never returns a numeric
answer for a cyclic graph, and as a total Lean function it never
loops); on every acyclic input it returns normally, and on the empty
graph it returns an empty critical set, total duration 0, and an empty
slack map without error. -/
theorem computeCriticalPath_error_iff (g : DiGraph) (hwf : WF g) :
    ((∃ c, computeCriticalPath g = .error c) ↔ Cyclic g) ∧
    computeCriticalPath { nodes := [], edges := [] } = .ok ([], 0, []) := by
  refine ⟨⟨?_, ?_⟩, rfl⟩
  · rintro ⟨c, hc⟩
    rw [computeCriticalPath] at hc
    by_cases hempty : g.nodes.isEmpty
    · rw [if_pos hempty] at hc
      exact absurd hc (by simp)
    · rw [if_neg hempty] at hc
      cases hdag : isDAGb g with
      | true =>
        rw [if_neg (by simp [hdag])] at hc
        exact absurd hc (by simp)
      | false => exact not_dag_cyclic g hdag
  · intro hcyc
    have hdag : isDAGb g = false := cyclic_not_dag g hwf hcyc
    have hnonempty : g.nodes.isEmpty = false := by
      obtain ⟨v, hv⟩ := hcyc
      obtain ⟨b, hb, -⟩ := Relation.TransGen.head'_iff.mp hv
      have hmem := (hwf.1 (v, b) ((edgeB_iff g v b).mp hb)).1
      rw [List.isEmpty_eq_false]
      intro hnil
      rw [DiGraph.nodeIds, hnil] at hmem
      simp at hmem
    exact ⟨[], by rw [computeCriticalPath, if_neg (by simp [hnonempty]),
      if_pos (by simp [hdag])]⟩

/-- Witness for C7 at the diamond DAG. -/
theorem computeCriticalPath_error_iff_witness :
    ((∃ c, computeCriticalPath diamondGraph = .error c) ↔ Cyclic diamondGraph) ∧
    computeCriticalPath { nodes := [], edges := [] } = .ok ([], 0, []) :=
  computeCriticalPath_error_iff diamondGraph diamondGraph_wf

/-! ## C2: cycle rejection in `create_dependency` -/

theorem foldl_addEdge_wf (deps : List DepRec) :
    ∀ g : DiGraph,
      WF g → WF (deps.foldl (fun g d => g.addEdge d.depends_on_task_id d.task_id) g) := by
  induction deps with
  | nil => intro g h; exact h
  | cons d ds ih =>
    intro g h
    exact ih _ (addEdge_wf _ _ _ h)

theorem buildDependencyGraph_wf (db : DB) (tid : String)
    (hnd : (db.tasks.map (·.id)).Nodup) : WF (buildDependencyGraph db tid) := by
  rw [buildDependencyGraph]
  apply foldl_addEdge_wf
  constructor
  · intro e he
    simp at he
  · simp only [DiGraph.nodeIds, List.map_map]
    have hcomp : ((fun (nd : Node) => nd.id) ∘
        (fun (t : TaskRec) => (⟨t.id, some t.title, some (pyOr t.estimated_hours 4)⟩ : Node))) =
        fun (t : TaskRec) => t.id := rfl
    rw [hcomp]
    exact hnd.sublist ((List.filter_sublist db.tasks).map _)

set_option maxHeartbeats 1600000 in
/-- C2 (amended): for every proposed dependency edge that passes the
preliminary validations (distinct existing tasks of one transcript, not
already present) and whose addition makes the graph cyclic,
`create_dependency` raises `CyclicDependencyError` before any commit,
the persisted state is returned unchanged, and the reported cycle path
is a closed walk of the graph with the candidate edge, all of whose
nodes are graph nodes. (A proposed self-loop, which also closes a
cycle, is instead rejected earlier with `ValidationError` — see the
counterexample.) -/
theorem createDependency_cycle_spec (db : DB) (tid did : String) (t1 t2 : TaskRec)
    (hne : tid ≠ did)
    (h1 : db.tasks.find? (fun t => t.id == tid) = some t1)
    (h2 : db.tasks.find? (fun t => t.id == did) = some t2)
    (hsame : t1.transcript_id = t2.transcript_id)
    (hnodup : ¬ ∃ d ∈ db.deps, d.task_id = tid ∧ d.depends_on_task_id = did)
    (hnd : (db.tasks.map (·.id)).Nodup)
    (hcyc : Cyclic ((buildDependencyGraph db t1.transcript_id).addEdge did tid)) :
    createDependency db tid did true =
      (db, .error (.cyclic (findCycle ((buildDependencyGraph db t1.transcript_id).addEdge did tid)))) ∧
    IsClosedWalk ((buildDependencyGraph db t1.transcript_id).addEdge did tid)
      (findCycle ((buildDependencyGraph db t1.transcript_id).addEdge did tid)) ∧
    (∀ x ∈ findCycle ((buildDependencyGraph db t1.transcript_id).addEdge did tid),
      x ∈ ((buildDependencyGraph db t1.transcript_id).addEdge did tid).nodeIds) := by
  have hwfg : WF ((buildDependencyGraph db t1.transcript_id).addEdge did tid) :=
    addEdge_wf _ _ _ (buildDependencyGraph_wf db _ hnd)
  have hdag : isDAGb ((buildDependencyGraph db t1.transcript_id).addEdge did tid) = false :=
    cyclic_not_dag _ hwfg hcyc
  have hb1 : (tid == did) = false := beq_eq_false_iff_ne.mpr hne
  have hb2 : (t1.transcript_id != t2.transcript_id) = false := by
    simp [bne, hsame]
  have hb3 : (db.deps.any fun d => d.task_id == tid && d.depends_on_task_id == did) = false := by
    rw [List.any_eq_false]
    intro d hd
    simp only [Bool.and_eq_true, beq_iff_eq, not_and]
    intro hdt hdd
    exact hnodup ⟨d, hd, hdt, hdd⟩
  refine ⟨?_, findCycle_closedWalk _ hdag,
    closedWalk_subset _ hwfg _ (findCycle_closedWalk _ hdag)⟩
  simp [createDependency, hb1, h1, h2, hb2, hb3, hdag]

/-- Counterexample to C2 as stated: the proposed self-dependency
(A, A) would close a cycle (the graph with it added is cyclic), yet
`create_dependency` raises `ValidationError`, not
`CyclicDependencyError`. -/
theorem createDependency_selfloop_counterexample :
    Cyclic ((buildDependencyGraph selfLoopDB "t1").addEdge "A" "A") ∧
    createDependency selfLoopDB "A" "A" true =
      (selfLoopDB, .error (.validation "A task cannot depend on itself")) :=
  ⟨⟨"A", .single (by rfl)⟩, by rfl⟩

/-- Witness for C2 at the two-node database with a persisted edge
A→B and the proposal "A depends on B". -/
theorem createDependency_cycle_spec_witness :
    createDependency cycleDB "A" "B" true =
      (cycleDB, .error (.cyclic (findCycle
        ((buildDependencyGraph cycleDB "t1").addEdge "B" "A")))) :=
  (createDependency_cycle_spec cycleDB "A" "B"
    ⟨"A", "t1", "Task A", some 1⟩ ⟨"B", "t1", "Task B", some 2⟩
    (by decide) rfl rfl rfl (by decide) (by decide)
    ⟨"A", Relation.TransGen.trans
      (Relation.TransGen.single
        (show ((buildDependencyGraph cycleDB "t1").addEdge "B" "A").edgeB "A" "B" = true from rfl))
      (Relation.TransGen.single
        (show ((buildDependencyGraph cycleDB "t1").addEdge "B" "A").edgeB "B" "A" = true from rfl))⟩).1

/-! ## C4: slack formula and the critical-set criterion -/

theorem alookup_map_self {α : Type} (f : String → α) :
    ∀ (l : List String), l.Nodup → ∀ n ∈ l,
      alookup (l.map (fun m => (m, f m))) n = some (f n) := by
  intro l
  induction l with
  | nil => intro _ n hn; simp at hn
  | cons a l' ih =>
    intro hnd n hn
    simp only [List.map_cons, alookup]
    rcases List.mem_cons.mp hn with rfl | hn'
    · rw [if_pos (by simp)]
    · rw [if_neg ?_]
      · exact ih (List.nodup_cons.mp hnd).2 n hn'
      · simp only [beq_iff_eq]
        rintro rfl
        exact (List.nodup_cons.mp hnd).1 hn'

/-- C4 (amended): for every node of a validated well-formed DAG, the
slack returned by `compute_critical_path` equals
`max(0, round(latestStart − earliestStart, 2))`, and the node is
included in the critical set if and only if its *raw* (pre-rounding)
slack `latestStart − earliestStart` is ≤ ε with ε = 0.001;
consequently every node not in the returned critical set has raw slack
strictly greater than ε (though its returned rounded slack may be 0). -/
theorem slack_critical_spec (g : DiGraph) (hwf : WF g) (crit : List String) (td : ℚ)
    (slack : List (String × ℚ)) (hok : computeCriticalPath g = .ok (crit, td, slack)) :
    ∀ n ∈ g.nodeIds,
      alookup slack n = some (max 0 (pyRound2 (rawSlack g n))) ∧
      (n ∈ crit ↔ rawSlack g n ≤ 1/1000) ∧
      (n ∉ crit → 1/1000 < rawSlack g n) := by
  intro n hn
  rw [computeCriticalPath] at hok
  by_cases hempty : g.nodes.isEmpty
  · exfalso
    rw [List.isEmpty_eq_true] at hempty
    rw [DiGraph.nodeIds, hempty] at hn
    simp at hn
  · rw [if_neg hempty] at hok
    cases hdag : isDAGb g with
    | false =>
      rw [if_pos (by simp [hdag])] at hok
      exact absurd hok (by simp)
    | true =>
      rw [if_neg (by simp [hdag])] at hok
      simp only [Except.ok.injEq, Prod.mk.injEq] at hok
      obtain ⟨hc, -, hs⟩ := hok
      have hmem : n ∈ topoSort g := (mem_topoSort g hdag n).mpr hn
      have hnd := topoSort_nodup g hwf.2
      refine ⟨?_, ?_, ?_⟩
      · rw [← hs]
        exact alookup_map_self _ (topoSort g) hnd n hmem
      · rw [← hc, List.mem_filter]
        simp only [decide_eq_true_eq]
        constructor
        · rintro ⟨-, hle⟩
          exact hle
        · intro hle
          exact ⟨hmem, hle⟩
      · intro hnotin
        by_contra hle
        rw [not_lt] at hle
        apply hnotin
        rw [← hc, List.mem_filter]
        simp only [decide_eq_true_eq]
        exact ⟨hmem, hle⟩

set_option maxHeartbeats 3200000 in
theorem slackRoundGraph_eval :
    computeCriticalPath slackRoundGraph = .ok (["A"], 5, [("A", 0), ("B", 0)]) := by
  have htopo : topoSort slackRoundGraph = ["A", "B"] := by rfl
  have hdag : isDAGb slackRoundGraph = true := by rfl
  have hpA : slackRoundGraph.predecessors "A" = [] := by rfl
  have hpB : slackRoundGraph.predecessors "B" = [] := by rfl
  have hsA : slackRoundGraph.successors "A" = [] := by rfl
  have hsB : slackRoundGraph.successors "B" = [] := by rfl
  have hdA : durOf slackRoundGraph "A" = 5 := by rfl
  have hdB : durOf slackRoundGraph "B" = 4996/1000 := by rfl
  have hfwd : forwardPass slackRoundGraph ["A", "B"] =
      ([("A", 0), ("B", 0)], [("A", 5), ("B", 4996/1000)]) := by
    simp only [forwardPass, List.foldl_cons, List.foldl_nil, hpA, hpB, hdA, hdB]
    norm_num
  have htot : totalDur slackRoundGraph ["A", "B"] = 5 := by
    rw [totalDur, hfwd]
    simp [lookupQ, alookup, maxQ]
    norm_num [max_def]
  have hbwd : backwardPass slackRoundGraph ["A", "B"] 5 =
      ([("B", 5), ("A", 5)], [("B", 4/1000), ("A", 0)]) := by
    simp only [backwardPass, List.reverse_cons, List.reverse_nil, List.nil_append,
      List.cons_append, List.foldl_cons, List.foldl_nil, hsA, hsB, hdA, hdB]
    norm_num
  rw [computeCriticalPath]
  rw [if_neg (by simp [slackRoundGraph]), if_neg (by simp [hdag])]
  simp only [htopo, htot, hfwd, hbwd]
  simp only [List.map_cons, List.map_nil, List.filter_cons, List.filter_nil]
  simp [lookupQ, alookup]
  norm_num [pyRound2, max_def, Int.floor_eq_iff]

/-- Counterexample to C4 as stated: in `slackRoundGraph`, the returned
slack of "B" is 0 ≤ ε, yet "B" is not in the returned critical set
(the code tests the raw slack 0.004 > ε before rounding), so the
claim's iff on the returned slack — and its consequence that
non-critical nodes have returned slack > 0 — both fail. -/
theorem slack_critical_counterexample :
    computeCriticalPath slackRoundGraph = .ok (["A"], 5, [("A", 0), ("B", 0)]) ∧
    alookup [("A", (0 : ℚ)), ("B", 0)] "B" = some 0 ∧
    ((0 : ℚ) ≤ 1/1000) ∧ "B" ∉ (["A"] : List String) :=
  ⟨slackRoundGraph_eval, by rfl, by norm_num, by decide⟩

theorem slackRoundGraph_wf : WF slackRoundGraph :=
  ⟨by decide, by decide⟩

/-- Witness for C4 (amended) at `slackRoundGraph` and node "A". -/
theorem slack_critical_spec_witness :
    ("A" ∈ (["A"] : List String) ↔ rawSlack slackRoundGraph "A" ≤ 1/1000) :=
  ((slack_critical_spec slackRoundGraph slackRoundGraph_wf ["A"] 5 [("A", 0), ("B", 0)]
    slackRoundGraph_eval "A" (by decide)).2).1

/-! ## C6: node durations from task estimates -/

theorem addEdge_nodes_prefix (g : DiGraph) (u v : String) :
    ∃ l, (g.addEdge u v).nodes = g.nodes ++ l := by
  have h1 : ∃ l1, (g.addNode u).nodes = g.nodes ++ l1 := by
    rw [DiGraph.addNode]
    split
    · exact ⟨[], by simp⟩
    · exact ⟨_, rfl⟩
  have h2 : ∃ l2, ((g.addNode u).addNode v).nodes = (g.addNode u).nodes ++ l2 := by
    rw [DiGraph.addNode]
    split
    · exact ⟨[], by simp⟩
    · exact ⟨_, rfl⟩
  obtain ⟨l1, hl1⟩ := h1
  obtain ⟨l2, hl2⟩ := h2
  rw [DiGraph.addEdge]
  split
  · exact ⟨l1 ++ l2, by rw [hl2, hl1, List.append_assoc]⟩
  · exact ⟨l1 ++ l2, by
      show ((g.addNode u).addNode v).nodes = g.nodes ++ (l1 ++ l2)
      rw [hl2, hl1, List.append_assoc]⟩

theorem foldl_addEdge_nodes_prefix (deps : List DepRec) :
    ∀ g : DiGraph, ∃ l,
      (deps.foldl (fun g d => g.addEdge d.depends_on_task_id d.task_id) g).nodes =
        g.nodes ++ l := by
  induction deps with
  | nil => intro g; exact ⟨[], by simp⟩
  | cons d ds ih =>
    intro g
    obtain ⟨l1, hl1⟩ := addEdge_nodes_prefix g d.depends_on_task_id d.task_id
    obtain ⟨l2, hl2⟩ := ih (g.addEdge d.depends_on_task_id d.task_id)
    exact ⟨l1 ++ l2, by rw [List.foldl_cons, hl2, hl1, List.append_assoc]⟩

/-- C6 (amended): the duration attribute of a task's graph node equals
the task's estimated hours whenever that estimate is specified and
nonzero, and equals the default 4 when the estimate is unspecified
*or specified as 0* (Python's `estimated_hours or 4` treats a 0
estimate as unset). -/
theorem build_duration_spec (db : DB) (tid : String) (t : TaskRec)
    (ht : t ∈ db.tasks) (htid : t.transcript_id = tid) :
    ∃ nd ∈ (buildDependencyGraph db tid).nodes, nd.id = t.id ∧
      nd.duration = some (match t.estimated_hours with
        | none => 4
        | some h => if h = 0 then 4 else h) := by
  rw [buildDependencyGraph]
  obtain ⟨l, hl⟩ := foldl_addEdge_nodes_prefix
    ((db.deps.filter (fun d =>
      ((db.tasks.filter (fun t => t.transcript_id == tid)).map (·.id)).any
        (fun i => i == d.task_id))))
    { nodes := (db.tasks.filter (fun t => t.transcript_id == tid)).map
        (fun t => ⟨t.id, some t.title, some (pyOr t.estimated_hours 4)⟩)
      edges := [] }
  refine ⟨⟨t.id, some t.title, some (pyOr t.estimated_hours 4)⟩, ?_, rfl, ?_⟩
  · rw [hl]
    apply List.mem_append_left
    exact List.mem_map_of_mem _
      (List.mem_filter.mpr ⟨ht, by simp [htid]⟩)
  · cases t.estimated_hours with
    | none => rfl
    | some h => rfl

/-- Counterexample to C6 as stated: a task whose estimate is specified
as 0 gets node duration 4, not 0. -/
theorem build_duration_zero_counterexample :
    (buildDependencyGraph zeroEstimateDB "t1").nodes =
      [⟨"A", some "Task A", some 4⟩] ∧ (4 : ℚ) ≠ 0 := by
  constructor
  · show (buildDependencyGraph zeroEstimateDB "t1").nodes = _
    simp [buildDependencyGraph, zeroEstimateDB, pyOr]
  · norm_num

/-- Witness for C6 (amended) at the zero-estimate database. -/
theorem build_duration_spec_witness :
    ∃ nd ∈ (buildDependencyGraph zeroEstimateDB "t1").nodes,
      nd.id = "A" ∧
      nd.duration = some (match (some (0 : ℚ) : Option ℚ) with
        | none => 4
        | some h => if h = 0 then 4 else h) :=
  build_duration_spec zeroEstimateDB "t1" ⟨"A", "t1", "Task A", some 0⟩
    (by decide) rfl

/-! ## C10: edge criticality flag in the graph view -/

/-- C10: in the React Flow edge output, an edge is flagged as critical
(animated, red stroke, double width) if and only if both its source
and its target belong to the supplied critical set — in particular an
edge joining two critical nodes is flagged even when the edge itself
lies on no critical path; and every graph edge produces exactly one
output edge with the same endpoints. -/
theorem reactFlowEdges_critical_iff (g : DiGraph) (cs : List String) :
    (∀ e ∈ reactFlowEdges g cs,
      (e.animated = true ↔ e.source ∈ cs ∧ e.target ∈ cs) ∧
      e.stroke = (if e.source ∈ cs ∧ e.target ∈ cs then "#ef4444" else "#6b7280") ∧
      e.strokeWidth = (if e.source ∈ cs ∧ e.target ∈ cs then 2 else 1)) ∧
    (∀ p ∈ g.edges, ∃ e ∈ reactFlowEdges g cs, e.source = p.1 ∧ e.target = p.2) := by
  constructor
  · intro e he
    rw [reactFlowEdges] at he
    obtain ⟨p, hp, rfl⟩ := List.mem_map.mp he
    have hcrit : (cs.any (fun c => c == p.1) && cs.any (fun c => c == p.2)) = true ↔
        p.1 ∈ cs ∧ p.2 ∈ cs := by
      rw [Bool.and_eq_true, any_beq_iff_mem, any_beq_iff_mem]
    by_cases hmem : p.1 ∈ cs ∧ p.2 ∈ cs
    · have hb : (cs.any (fun c => c == p.1) && cs.any (fun c => c == p.2)) = true :=
        hcrit.mpr hmem
      refine ⟨?_, ?_, ?_⟩ <;> simp [hb, hmem]
    · have hb : (cs.any (fun c => c == p.1) && cs.any (fun c => c == p.2)) = false := by
        cases hx : (cs.any (fun c => c == p.1) && cs.any (fun c => c == p.2)) with
        | true => exact absurd (hcrit.mp hx) hmem
        | false => rfl
      refine ⟨?_, ?_, ?_⟩ <;> simp [hb, hmem]
  · intro p hp
    exact ⟨_, List.mem_map_of_mem _ hp, rfl, rfl⟩

/-- Witness for C10: the diamond's edge (A, B) with critical set
{A, C, D}. -/
theorem reactFlowEdges_critical_iff_witness :
    ∃ e ∈ reactFlowEdges diamondGraph ["A", "C", "D"],
      e.source = ("A", "B").1 ∧ e.target = ("A", "B").2 :=
  (reactFlowEdges_critical_iff diamondGraph ["A", "C", "D"]).2 ("A", "B") (by decide)

end InsightBoard

namespace InsightBoard

/-! ## C8: bottleneck detection -/

theorem insertDesc_perm (x : Bottleneck) (l : List Bottleneck) :
    (insertDesc x l).Perm (x :: l) := by
  induction l with
  | nil => exact List.Perm.refl _
  | cons y ys ih =>
    rw [insertDesc]
    split
    · exact List.Perm.refl _
    · exact (ih.cons y).trans (List.Perm.swap x y ys)

theorem sortDesc_perm (l : List Bottleneck) : (sortDesc l).Perm l := by
  induction l with
  | nil => exact List.Perm.refl _
  | cons x xs ih =>
    rw [sortDesc]
    exact (insertDesc_perm x (sortDesc xs)).trans (ih.cons x)

theorem insertDesc_sorted (x : Bottleneck) (l : List Bottleneck)
    (h : l.Pairwise (fun a b => b.score ≤ a.score)) :
    (insertDesc x l).Pairwise (fun a b => b.score ≤ a.score) := by
  induction l with
  | nil => simp [insertDesc]
  | cons y ys ih =>
    rcases List.pairwise_cons.mp h with ⟨hy, hys⟩
    rw [insertDesc]
    split <;> rename_i hcond
    · refine List.pairwise_cons.mpr ⟨?_, h⟩
      intro b hb
      rcases List.mem_cons.mp hb with rfl | hbys
      · exact hcond
      · exact Nat.le_trans (hy b hbys) hcond
    · refine List.pairwise_cons.mpr ⟨?_, ih hys⟩
      intro b hb
      have hb' : b ∈ x :: ys := (insertDesc_perm x ys).mem_iff.mp hb
      rcases List.mem_cons.mp hb' with rfl | hbys
      · exact Nat.le_of_not_le hcond
      · exact hy b hbys

theorem sortDesc_sorted (l : List Bottleneck) :
    (sortDesc l).Pairwise (fun a b => b.score ≤ a.score) := by
  induction l with
  | nil => simp [sortDesc]
  | cons x xs ih => exact insertDesc_sorted x (sortDesc xs) ih

theorem insertDesc_filter (x : Bottleneck) :
    ∀ (l : List Bottleneck) (s : Nat),
      (insertDesc x l).filter (fun b => b.score == s) =
        (if x.score == s then [x] else []) ++ l.filter (fun b => b.score == s) := by
  intro l
  induction l with
  | nil =>
    intro s
    rw [insertDesc, List.filter_cons, List.filter_nil]
    split <;> simp_all
  | cons y ys ih =>
    intro s
    rw [insertDesc]
    split <;> rename_i hcond
    · rw [List.filter_cons]
      split <;> simp_all
    · have hlt : x.score < y.score := Nat.lt_of_not_le hcond
      rw [List.filter_cons, ih s, List.filter_cons]
      by_cases hx : (x.score == s) = true
      · have hy : (y.score == s) = false := by
          rw [beq_iff_eq] at hx
          rw [beq_eq_false_iff_ne]
          omega
        simp [hx, hy]
      · simp only [if_neg hx, List.nil_append]

theorem sortDesc_filter (l : List Bottleneck) (s : Nat) :
    (sortDesc l).filter (fun b => b.score == s) = l.filter (fun b => b.score == s) := by
  induction l with
  | nil => rfl
  | cons x xs ih =>
    rw [sortDesc, insertDesc_filter, ih, List.filter_cons]
    split <;> rename_i h
    · rfl
    · rfl

theorem mem_bottleneckCandidates (g : DiGraph) (b : Bottleneck) :
    b ∈ bottleneckCandidates g ↔ ∃ n ∈ g.nodeIds,
      b = ⟨n, titleOf g n, g.outDegree n * 2 + g.inDegree n,
           g.inDegree n, g.outDegree n⟩ ∧
      0 < g.outDegree n * 2 + g.inDegree n := by
  simp only [bottleneckCandidates, List.mem_filterMap]
  constructor
  · rintro ⟨n, hn, hb⟩
    by_cases h : 0 < g.outDegree n * 2 + g.inDegree n
    · rw [if_pos h] at hb
      exact ⟨n, hn, (Option.some.inj hb).symm, h⟩
    · rw [if_neg h] at hb
      cases hb
  · rintro ⟨n, hn, rfl, h⟩
    exact ⟨n, hn, by rw [if_pos h]⟩

/-- C8: `detect_bottlenecks` returns exactly the nodes with positive
score = 2·outDegree + inDegree, each entry carrying that score with
the node's in-degree and out-degree, sorted by score descending with
ties kept in input order (stable sort), truncated to the first `topN`
entries; nodes with score 0 never appear. Concretely, on spec
Scenario 4 the fan-out node A (score 6) comes first. -/
theorem detectBottlenecks_spec (g : DiGraph) (topN : Nat) :
    detectBottlenecks g topN = (sortDesc (bottleneckCandidates g)).take topN ∧
    (∀ b, b ∈ sortDesc (bottleneckCandidates g) ↔ ∃ n ∈ g.nodeIds,
      b = ⟨n, titleOf g n, g.outDegree n * 2 + g.inDegree n,
           g.inDegree n, g.outDegree n⟩ ∧
      0 < g.outDegree n * 2 + g.inDegree n) ∧
    (sortDesc (bottleneckCandidates g)).Pairwise (fun a b => b.score ≤ a.score) ∧
    (∀ s : Nat, (sortDesc (bottleneckCandidates g)).filter (fun b => b.score == s) =
      (bottleneckCandidates g).filter (fun b => b.score == s)) ∧
    (∀ b ∈ detectBottlenecks g topN, 0 < b.score ∧
      b.score = b.out_degree * 2 + b.in_degree) ∧
    detectBottlenecks fanOutGraph 3 =
      [⟨"A", "A", 6, 0, 3⟩, ⟨"B", "B", 1, 1, 0⟩, ⟨"C", "C", 1, 1, 0⟩] := by
  have htake : detectBottlenecks g topN = (sortDesc (bottleneckCandidates g)).take topN := by
    rw [detectBottlenecks]
    split <;> rename_i hempty
    · have : g.nodeIds = [] := by
        rw [DiGraph.nodeIds, List.isEmpty_iff.mp hempty]
        rfl
      rw [bottleneckCandidates, this]
      simp [sortDesc]
    · rfl
  refine ⟨htake, ?_, sortDesc_sorted _, fun s => sortDesc_filter _ s, ?_, by rfl⟩
  · intro b
    rw [(sortDesc_perm (bottleneckCandidates g)).mem_iff]
    exact mem_bottleneckCandidates g b
  · intro b hb
    rw [htake] at hb
    have hb1 : b ∈ sortDesc (bottleneckCandidates g) := List.mem_of_mem_take hb
    rw [(sortDesc_perm (bottleneckCandidates g)).mem_iff,
      mem_bottleneckCandidates] at hb1
    obtain ⟨n, -, rfl, hpos⟩ := hb1
    exact ⟨hpos, rfl⟩

/-- Witness for C8 at the fan-out graph with topN = 3. -/
theorem detectBottlenecks_spec_witness :
    detectBottlenecks fanOutGraph 3 = (sortDesc (bottleneckCandidates fanOutGraph)).take 3 :=
  (detectBottlenecks_spec fanOutGraph 3).1

/-! ## C5: graph-cache invalidation (code bug) -/

/-- C5 (code bug): the invalidation the claim requires cannot happen:
`CacheService` defines no `invalidate_graph` method (so the calls in
`create_task` / `delete_task` / `complete_task` raise AttributeError at
runtime), and the dependency create/delete endpoints and `update_task`
perform no cache call at all, so the cache is left unchanged by a
dependency write and a later read returns the pre-write snapshot. -/
theorem cache_invalidation_missing :
    ("invalidate_graph" ∉ cacheServiceMethods) ∧
    createTaskCacheCalls = ["invalidate_graph"] ∧
    createDependencyEndpointCacheCalls = [] ∧
    deleteDependencyEndpointCacheCalls = [] ∧
    updateTaskCacheCalls = [] ∧
    (∀ (c : CacheState) (tid : String),
      cacheGet (depCreateCacheEffect c) (graphKey tid) = cacheGet c (graphKey tid)) :=
  ⟨by decide, rfl, rfl, rfl, rfl, fun c tid => rfl⟩

/-! ## C9: hierarchical layout -/

theorem alookup_isSome_of_mem_keys {α : Type} :
    ∀ (m : List (String × α)) (k : String), k ∈ m.map (·.1) → (alookup m k).isSome := by
  intro m
  induction m with
  | nil => intro k h; simp at h
  | cons p rest ih =>
    intro k h
    obtain ⟨p1, p2⟩ := p
    rw [alookup]
    by_cases hk : (p1 == k) = true
    · rw [if_pos hk]; rfl
    · rw [if_neg hk]
      apply ih
      simp only [List.map_cons, List.mem_cons] at h
      rcases h with h1 | h2
      · subst h1
        simp at hk
      · exact h2

theorem alookup_none_of_not_mem_keys {α : Type} :
    ∀ (m : List (String × α)) (k : String), k ∉ m.map (·.1) → alookup m k = none := by
  intro m
  induction m with
  | nil => intro k _; rfl
  | cons p rest ih =>
    intro k h
    obtain ⟨p1, p2⟩ := p
    rw [alookup, if_neg ?_]
    · exact ih k (fun h' => h (by simpa using Or.inr (by simpa using h')))
    · simp only [beq_iff_eq]
      rintro rfl
      exact h (by simp)

theorem alookup_append_some {α : Type} {m1 : List (String × α)} (m2 : List (String × α))
    {k : String} {v : α} (h : alookup m1 k = some v) : alookup (m1 ++ m2) k = some v := by
  induction m1 with
  | nil => simp [alookup] at h
  | cons p rest ih =>
    obtain ⟨p1, p2⟩ := p
    rw [alookup] at h
    rw [List.cons_append, alookup]
    by_cases hk : (p1 == k) = true
    · rw [if_pos hk] at h
      rwa [if_pos hk]
    · rw [if_neg hk] at h
      rw [if_neg hk]
      exact ih h

theorem alookup_append_none {α : Type} {m1 : List (String × α)} (m2 : List (String × α))
    {k : String} (h : alookup m1 k = none) : alookup (m1 ++ m2) k = alookup m2 k := by
  induction m1 with
  | nil => rfl
  | cons p rest ih =>
    obtain ⟨p1, p2⟩ := p
    rw [alookup] at h
    rw [List.cons_append, alookup]
    by_cases hk : (p1 == k) = true
    · rw [if_pos hk] at h; cases h
    · rw [if_neg hk] at h
      rw [if_neg hk]
      exact ih h

theorem mem_of_alookup {α : Type} :
    ∀ (m : List (String × α)) (k : String) (v : α), alookup m k = some v → (k, v) ∈ m := by
  intro m
  induction m with
  | nil => intro k v h; simp [alookup] at h
  | cons p rest ih =>
    intro k v h
    obtain ⟨p1, p2⟩ := p
    rw [alookup] at h
    by_cases hk : (p1 == k) = true
    · rw [if_pos hk] at h
      rw [beq_iff_eq] at hk
      subst hk
      rw [Option.some.inj h]
      exact List.mem_cons_self _ _
    · rw [if_neg hk] at h
      exact List.mem_cons_of_mem _ (ih k v h)

theorem alookup_of_mem_nodup {α : Type} :
    ∀ (m : List (String × α)), (m.map (·.1)).Nodup →
      ∀ (k : String) (v : α), (k, v) ∈ m → alookup m k = some v := by
  intro m
  induction m with
  | nil => intro _ k v h; simp at h
  | cons p rest ih =>
    intro hnd k v h
    obtain ⟨p1, p2⟩ := p
    simp only [List.map_cons, List.nodup_cons] at hnd
    rw [alookup]
    rcases List.mem_cons.mp h with heq | h'
    · injection heq with h1 h2
      subst h1; subst h2
      rw [if_pos (by simp)]
    · rw [if_neg ?_]
      · exact ih hnd.2 k v h'
      · simp only [beq_iff_eq]
        rintro rfl
        exact hnd.1 (by exact List.mem_map_of_mem _ h')

theorem levelsFold_keys_aux (g : DiGraph) :
    ∀ (order : List String) (m : List (String × Nat)),
      (order.foldl (levelStep g) m).map (·.1) = m.map (·.1) ++ order := by
  intro order
  induction order with
  | nil => intro m; simp
  | cons n order' ih =>
    intro m
    rw [List.foldl_cons, ih]
    simp [levelStep]

theorem levelsFold_keys (g : DiGraph) (order : List String) :
    (levelsFold g order).map (·.1) = order := by
  rw [levelsFold, levelsFold_keys_aux]
  rfl

theorem levelsFold_lookup_stable (g : DiGraph) :
    ∀ (order : List String) (m : List (String × Nat)) (k : String),
      (alookup m k).isSome →
      alookup (order.foldl (levelStep g) m) k = alookup m k := by
  intro order
  induction order with
  | nil => intro m k _; rfl
  | cons n order' ih =>
    intro m k h
    obtain ⟨v, hv⟩ := Option.isSome_iff_exists.mp h
    rw [List.foldl_cons]
    have hstep : alookup (levelStep g m n) k = some v := by
      rw [levelStep]
      exact alookup_append_some _ hv
    rw [ih _ k (by rw [hstep]; rfl), hstep, hv]

theorem levelsFold_value (g : DiGraph) (L1 L2 : List String) (n : String)
    (hn1 : n ∉ L1) :
    alookup (levelsFold g (L1 ++ n :: L2)) n =
      some (if (g.predecessors n).isEmpty then 0
            else maxN ((g.predecessors n).map (fun p => lookupN (levelsFold g L1) p 0)) + 1) := by
  have hm1 : alookup (levelStep g (levelsFold g L1) n) n =
      some (if (g.predecessors n).isEmpty then 0
            else maxN ((g.predecessors n).map (fun p => lookupN (levelsFold g L1) p 0)) + 1) := by
    rw [levelStep]
    rw [alookup_append_none]
    · rw [alookup, if_pos (by simp)]
    · apply alookup_none_of_not_mem_keys
      rw [levelsFold_keys]
      exact hn1
  rw [levelsFold, List.append_cons, List.foldl_append, List.foldl_append,
    List.foldl_cons, List.foldl_nil]
  rw [levelsFold_lookup_stable]
  · exact hm1
  · rw [show (List.foldl (levelStep g) [] L1) = levelsFold g L1 from rfl, hm1]
    rfl

theorem levelsFold_pred_lookup (g : DiGraph) (L1 L2 : List String) (p : String)
    (hp : p ∈ L1) :
    alookup (levelsFold g (L1 ++ L2)) p = alookup (levelsFold g L1) p := by
  rw [levelsFold, List.foldl_append]
  rw [show (List.foldl (levelStep g) [] L1) = levelsFold g L1 from rfl]
  apply levelsFold_lookup_stable
  apply alookup_isSome_of_mem_keys
  rw [levelsFold_keys]
  exact hp

theorem hierarchicalLevels_rec (g : DiGraph) (hwf : WF g) (hdag : isDAGb g = true) :
    ∀ n ∈ g.nodeIds,
      lookupN (hierarchicalLevels g) n 0 =
        (if (g.predecessors n).isEmpty then 0
         else maxN ((g.predecessors n).map
           (fun p => lookupN (hierarchicalLevels g) p 0)) + 1) := by
  intro n hn
  have hmem : n ∈ topoSort g := (mem_topoSort g hdag n).mpr hn
  obtain ⟨L1, L2, hsplit⟩ := List.append_of_mem hmem
  have hnd : (topoSort g).Nodup := topoSort_nodup g hwf.2
  rw [hsplit] at hnd
  have hn1 : n ∉ L1 := by
    rcases List.nodup_append.mp hnd with ⟨-, -, hdisj⟩
    intro hc
    exact hdisj hc (List.mem_cons_self n L2)
  have hval := levelsFold_value g L1 L2 n hn1
  have hlvl : hierarchicalLevels g = levelsFold g (L1 ++ n :: L2) := by
    rw [hierarchicalLevels, hsplit]
  rw [hlvl, lookupN, hval]
  have hpred : ∀ p ∈ g.predecessors n,
      lookupN (levelsFold g L1) p 0 = lookupN (levelsFold g (L1 ++ n :: L2)) p 0 := by
    intro p hp
    have hedge : g.edgeB p n = true := (edgeB_iff g p n).mpr (mem_predecessors.mp hp)
    have hpnode : p ∈ g.nodeIds := (hwf.1 (p, n) (mem_predecessors.mp hp)).1
    have hpL1 : p ∈ L1 := topoSort_respects g p n hedge hpnode L1 L2 hsplit
    rw [lookupN, lookupN, levelsFold_pred_lookup g L1 (n :: L2) p hpL1]
  rw [Option.getD_some]
  by_cases hps : (g.predecessors n).isEmpty
  · rw [if_pos hps, if_pos hps]
  · rw [if_neg hps, if_neg hps]
    rw [List.map_congr_left hpred]

theorem mem_dedupAux : ∀ (l seen : List Nat) (x : Nat),
    x ∈ dedupAux seen l ↔ x ∈ l ∧ x ∉ seen := by
  intro l
  induction l with
  | nil => intro seen x; simp [dedupAux]
  | cons a l' ih =>
    intro seen x
    rw [dedupAux]
    split <;> rename_i hc
    · rw [ih]
      have ha : a ∈ seen := by
        have := hc
        rwa [any_beq_iff_mem] at this
      constructor
      · rintro ⟨h1, h2⟩
        exact ⟨List.mem_cons_of_mem _ h1, h2⟩
      · rintro ⟨h1, h2⟩
        rcases List.mem_cons.mp h1 with rfl | h1'
        · exact absurd ha h2
        · exact ⟨h1', h2⟩
    · have ha : a ∉ seen := by
        intro hmem
        exact hc (by rwa [any_beq_iff_mem])
      constructor
      · intro hx
        rcases List.mem_cons.mp hx with rfl | hx'
        · exact ⟨List.mem_cons_self _ _, ha⟩
        · rcases (ih (a :: seen) x).mp hx' with ⟨h1, h2⟩
          exact ⟨List.mem_cons_of_mem _ h1,
            fun hmem => h2 (List.mem_cons_of_mem _ hmem)⟩
      · rintro ⟨h1, h2⟩
        rcases List.mem_cons.mp h1 with rfl | h1'
        · exact List.mem_cons_self _ _
        · by_cases hxa : x = a
          · subst hxa
            exact List.mem_cons_self _ _
          · exact List.mem_cons_of_mem _ ((ih (a :: seen) x).mpr
              ⟨h1', fun hmem => (List.mem_cons.mp hmem).elim hxa h2⟩)

theorem mem_dedupFirst (l : List Nat) (x : Nat) : x ∈ dedupFirst l ↔ x ∈ l := by
  rw [dedupFirst, mem_dedupAux]
  simp

theorem hierarchicalLevels_keys (g : DiGraph) :
    (hierarchicalLevels g).map (·.1) = topoSort g :=
  levelsFold_keys g (topoSort g)

theorem mem_rowNodes (g : DiGraph) (lvl : Nat) (n : String) :
    n ∈ rowNodes g lvl ↔ (n, lvl) ∈ hierarchicalLevels g := by
  simp only [rowNodes, List.mem_map, List.mem_filter, beq_iff_eq]
  constructor
  · rintro ⟨p, ⟨hp, h2⟩, h1⟩
    obtain ⟨p1, p2⟩ := p
    cases h1; cases h2
    exact hp
  · intro h
    exact ⟨(n, lvl), ⟨h, rfl⟩, rfl⟩

theorem mem_hierarchicalLayout (g : DiGraph) (q : String × (ℚ × ℚ)) :
    q ∈ hierarchicalLayout g ↔
      ∃ lvl ∈ dedupFirst ((hierarchicalLevels g).map (·.2)),
        ∃ i, (rowNodes g lvl).get? i = some q.1 ∧
          q.2 = (rowX (rowNodes g lvl).length i,
                 startY + (lvl : ℚ) * verticalSpacing) := by
  simp only [hierarchicalLayout, List.mem_flatMap, List.mem_map]
  constructor
  · rintro ⟨lvl, hlvl, p, hp, rfl⟩
    rw [List.mem_enum_iff_get?] at hp
    exact ⟨lvl, hlvl, p.1, hp, rfl⟩
  · rintro ⟨lvl, hlvl, i, hi, hq⟩
    refine ⟨lvl, hlvl, (i, q.1), List.mem_enum_iff_get?.mpr hi, ?_⟩
    obtain ⟨q1, q2⟩ := q
    simp only at hq ⊢
    rw [hq]

set_option maxHeartbeats 1600000 in
/-- C9 (amended): for every well-formed acyclic graph, the
hierarchical layout assigns each node the level given by the
longest-path recurrence (0 for a node with no predecessors, otherwise
1 plus the maximum level of its predecessors), places every laid-out
node at `y = startY + level · verticalSpacing` and at the x-coordinate
`rowX k i` of its index `i` within its level row of size `k`; the
x-coordinates of a row advance by the fixed `horizontalSpacing`, and
each row is centred about `startX + canvasWidth/2` — the canvas
midline shifted right by the fixed start offset `startX = 150`, not
the canvas midline itself (see the counterexample); every node of the
graph is laid out. -/
theorem hierarchicalLayout_spec (g : DiGraph) (hwf : WF g) (hdag : isDAGb g = true) :
    (∀ n ∈ g.nodeIds,
      lookupN (hierarchicalLevels g) n 0 =
        (if (g.predecessors n).isEmpty then 0
         else maxN ((g.predecessors n).map
           (fun p => lookupN (hierarchicalLevels g) p 0)) + 1)) ∧
    (∀ q ∈ hierarchicalLayout g,
      q.2.2 = startY + (lookupN (hierarchicalLevels g) q.1 0 : ℚ) * verticalSpacing ∧
      ∃ lvl i, (rowNodes g lvl).get? i = some q.1 ∧
        q.2.1 = rowX (rowNodes g lvl).length i) ∧
    (∀ k i : Nat, rowX k (i + 1) = rowX k i + horizontalSpacing) ∧
    (∀ k : Nat, 1 ≤ k → rowX k 0 + rowX k (k - 1) = 2 * (startX + canvasWidth / 2)) ∧
    (∀ n ∈ g.nodeIds, ∃ pos, (n, pos) ∈ hierarchicalLayout g) := by
  have hkeysnd : ((hierarchicalLevels g).map (·.1)).Nodup := by
    rw [hierarchicalLevels_keys]
    exact topoSort_nodup g hwf.2
  refine ⟨hierarchicalLevels_rec g hwf hdag, ?_, ?_, ?_, ?_⟩
  · intro q hq
    rw [mem_hierarchicalLayout] at hq
    obtain ⟨lvl, -, i, hi, hq2⟩ := hq
    have hrow : q.1 ∈ rowNodes g lvl := by
      have := List.get?_mem hi
      exact this
    have hpair : (q.1, lvl) ∈ hierarchicalLevels g := (mem_rowNodes g lvl q.1).mp hrow
    have hlook : alookup (hierarchicalLevels g) q.1 = some lvl :=
      alookup_of_mem_nodup _ hkeysnd _ _ hpair
    constructor
    · rw [hq2]
      simp only [lookupN, hlook, Option.getD_some]
    · exact ⟨lvl, i, hi, by rw [hq2]⟩
  · intro k i
    rw [rowX, rowX]
    push_cast
    ring
  · intro k hk
    rw [rowX, rowX]
    have hcast : ((k - 1 : Nat) : ℚ) = (k : ℚ) - 1 := by
      have : (1 : Nat) ≤ k := hk
      push_cast [this]
      ring
    rw [hcast]
    rw [startX, canvasWidth, horizontalSpacing]
    ring
  · intro n hn
    have hmem : n ∈ topoSort g := (mem_topoSort g hdag n).mpr hn
    have hkeys : n ∈ (hierarchicalLevels g).map (·.1) := by
      rw [hierarchicalLevels_keys]
      exact hmem
    obtain ⟨lvl, hlook⟩ := Option.isSome_iff_exists.mp
      (alookup_isSome_of_mem_keys _ n hkeys)
    have hpair : (n, lvl) ∈ hierarchicalLevels g := mem_of_alookup _ _ _ hlook
    have hrow : n ∈ rowNodes g lvl := (mem_rowNodes g lvl n).mpr hpair
    obtain ⟨i, hi⟩ := List.get?_of_mem hrow
    refine ⟨(rowX (rowNodes g lvl).length i, startY + (lvl : ℚ) * verticalSpacing), ?_⟩
    rw [mem_hierarchicalLayout]
    refine ⟨lvl, ?_, i, hi, rfl⟩
    rw [mem_dedupFirst]
    exact List.mem_map_of_mem _ hpair

set_option maxHeartbeats 1600000 in
/-- Counterexample to C9 as stated: the single-node graph is laid out
at x = 1150, while centring within the canvas width 2000 would put it
at x = 1000 (the row centre is offset by `start_x = 150`). -/
theorem hierarchicalLayout_center_counterexample :
    hierarchicalLayout singleNodeGraph = [("A", (1150, 100))] ∧
    (1150 : ℚ) ≠ canvasWidth / 2 := by
  constructor
  · have hlev : hierarchicalLevels singleNodeGraph = [("A", 0)] := by rfl
    have hrow : rowNodes singleNodeGraph 0 = ["A"] := by rfl
    simp only [hierarchicalLayout, hlev]
    rw [show dedupFirst (List.map (fun x => x.2) [(("A" : String), (0 : Nat))]) = [0] from rfl]
    simp only [List.flatMap_cons, List.flatMap_nil, hrow, List.enum_cons, List.enum_nil,
      List.map_cons, List.map_nil, List.append_nil]
    norm_num [rowX, startX, canvasWidth, horizontalSpacing, startY, verticalSpacing]
  · rw [canvasWidth]
    norm_num

/-- Witness for C9 (amended) at the diamond DAG, row size 2. -/
theorem hierarchicalLayout_spec_witness :
    rowX 2 0 + rowX 2 (2 - 1) = 2 * (startX + canvasWidth / 2) :=
  (hierarchicalLayout_spec diamondGraph diamondGraph_wf (by rfl)).2.2.2.1 2 (by decide)

end InsightBoard
